import Mathlib

/-!
# Push-id generator (`maelstrom-unique-ids/pushid.go`)

A shallow embedding of `GenerateId` and of the closure it returns.

* The variables captured by the closure (`lastPushTime`, `lastRandChars`, and the
  position reached in the stream of the private `rand`) form `GenState`.
* One call of the closure is `next rnd s clock`: `clock` is the value of
  `time.Now().UTC().UnixNano() / 1000000` read at line 34, `rnd k` is the value of the
  `k`-th call of `rand.Int31n(64)` made on this generator.
* A Go panic is a `Fault`; `next` returns the state the captured variables are left in
  together with either the fault or the identifier.
* Go's `int`/`int64` are `Int`; `/` and `%` are the truncating `Int.tdiv`/`Int.tmod`; `++`
  wraps at 64 bits.
* The embedding is of one caller at a time: the mutex is not part of the state. (A panic
  raised between lines 33 and 67 leaves the mutex locked, so after it no later call on that
  generator gets past line 33.)
-/

namespace PushId

/-- Line 22: the alphabet, ordered by ASCII. -/
def idChars : String :=
  "-0123456789ABCDEFGHIJKLMNOPQRSTUVWXYZ_abcdefghijklmnopqrstuvwxyz"

/-- The ways a call of the closure can panic. -/
inductive Fault where
  /-- Line 44: `panic("We should have converted the entire timestamp.")`. -/
  | clockRange
  /-- Go runtime error `index out of range [index]` on a sequence of `length` elements. -/
  | indexOutOfRange (index : Int) (length : Nat)
  deriving DecidableEq

/-- Variables captured by the closure (lines 25, 26, 29). -/
structure GenState where
  /-- Captured `lastPushTime int64`. -/
  lastPushTime : Int
  /-- Captured `lastRandChars []int`. -/
  lastRandChars : List Int
  /-- How many values have been taken from the captured `rand` so far. -/
  randDraws : Nat
  deriving DecidableEq

/-- Lines 25-29: the captured variables of a fresh closure. -/
def GenerateId : GenState :=
  { lastPushTime := 0, lastRandChars := List.replicate 12 0, randDraws := 0 }

/-- Two's-complement wrap-around of a 64-bit signed integer. -/
def wrapInt64 (x : Int) : Int :=
  (x + 2 ^ 63) % 2 ^ 64 - 2 ^ 63

/-- Lines 39-42: `for i := 7; i >= 0; i--`; the first argument is `i + 1`. Returns the digit
slice and what is left of `nowInMs`. -/
def timeStampLoop : Nat → Int → List Int → List Int × Int
  | 0, nowInMs, timeStampChars => (timeStampChars, nowInMs)
  | i + 1, nowInMs, timeStampChars =>
      timeStampLoop i (nowInMs.tdiv 64) (timeStampChars.set i (nowInMs.tmod 64))

/-- Lines 48-50: `for i := 0; i < 8; i++ { id[i] = timeStampChars[i] }`; the first argument
counts the remaining iterations. -/
def copyTimeLoop : Nat → Nat → List Int → List Int → List Int
  | 0, _, _, id => id
  | n + 1, i, timeStampChars, id =>
      copyTimeLoop n (i + 1) timeStampChars (id.set i (timeStampChars.getD i 0))

/-- Lines 52-54: `for i := 0; i < 12; i++ { lastRandChars[i] = int(rand.Int31n(64)) }`; the
first argument counts the remaining iterations. The right-hand side is evaluated before the
store is bounds-checked. -/
def drawLoop (rnd : Nat → Int) : Nat → Nat → GenState → GenState × Except Fault Unit
  | 0, _, s => (s, .ok ())
  | n + 1, i, s =>
      let r := rnd s.randDraws
      let s1 := { s with randDraws := s.randDraws + 1 }
      if i < s1.lastRandChars.length then
        drawLoop rnd n (i + 1) { s1 with lastRandChars := s1.lastRandChars.set i r }
      else
        (s1, .error (.indexOutOfRange i s1.lastRandChars.length))

/-- Lines 57-61: `i := 11; for i >= 0 && lastRandChars[i] == 63 { lastRandChars[i] = 0; i-- }`;
the first argument is `i + 1`. Returns the slice and the final value of `i`. -/
def carryLoop : Nat → List Int → List Int × Except Fault Int
  | 0, lastRandChars => (lastRandChars, .ok (-1))
  | i + 1, lastRandChars =>
      if i < lastRandChars.length then
        if lastRandChars.getD i 0 = 63 then
          carryLoop i (lastRandChars.set i 0)
        else
          (lastRandChars, .ok i)
      else
        (lastRandChars, .error (.indexOutOfRange i lastRandChars.length))

/-- Lines 57-62: the carry scan followed by `lastRandChars[i]++`. -/
def incrementRand (s : GenState) : GenState × Except Fault Unit :=
  let scanned := carryLoop 12 s.lastRandChars
  let s1 := { s with lastRandChars := scanned.1 }
  match scanned.2 with
  | .error f => (s1, .error f)
  | .ok i =>
      if 0 ≤ i ∧ i < s1.lastRandChars.length then
        ({ s1 with lastRandChars :=
            s1.lastRandChars.set i.toNat (wrapInt64 (s1.lastRandChars.getD i.toNat 0 + 1)) },
          .ok ())
      else
        (s1, .error (.indexOutOfRange i s1.lastRandChars.length))

/-- Lines 64-66: `for i := 0; i < 12; i++ { id[i+8] = lastRandChars[i] }`; the first argument
counts the remaining iterations. -/
def copyRandLoop : Nat → Nat → List Int → List Int → Except Fault (List Int)
  | 0, _, _, id => .ok id
  | n + 1, i, lastRandChars, id =>
      if i < lastRandChars.length then
        copyRandLoop n (i + 1) lastRandChars (id.set (i + 8) (lastRandChars.getD i 0))
      else
        .error (.indexOutOfRange i lastRandChars.length)

/-- Line 70: `idChars[d]`, a byte of the alphabet, bounds-checked. -/
def idCharAt (d : Int) : Except Fault Char :=
  if 0 ≤ d ∧ d < idChars.length then
    .ok (idChars.toList.getD d.toNat '-')
  else
    .error (.indexOutOfRange d idChars.length)

/-- Lines 68-71: `for i := 0; i < len(id); i++ { idStr = idStr + string(idChars[id[i]]) }`,
over the elements of `id` that are still to be visited. -/
def idStrLoop : List Int → String → Except Fault String
  | [], idStr => .ok idStr
  | d :: rest, idStr =>
      match idCharAt d with
      | .error f => .error f
      | .ok c => idStrLoop rest (idStr ++ String.singleton c)

/-- Lines 31-73: one call of the closure returned by `GenerateId`. -/
def next (rnd : Nat → Int) (s : GenState) (clock : Int) : GenState × Except Fault String :=
  let nowInMs := clock
  let duplicateTime := decide (nowInMs = s.lastPushTime)
  let s1 := { s with lastPushTime := nowInMs }
  let stamped := timeStampLoop 8 nowInMs (List.replicate 8 0)
  if stamped.2 ≠ 0 then
    (s1, .error .clockRange)
  else
    let id := copyTimeLoop 8 0 stamped.1 (List.replicate 20 0)
    let stepped := if !duplicateTime then drawLoop rnd 12 0 s1 else incrementRand s1
    match stepped.2 with
    | .error f => (stepped.1, .error f)
    | .ok _ =>
        match copyRandLoop 12 0 stepped.1.lastRandChars id with
        | .error f => (stepped.1, .error f)
        | .ok id => (stepped.1, idStrLoop id "")

/-- Go's `<` on byte sequences: the first differing byte decides, a proper prefix is smaller. -/
def bytesLess : List Nat → List Nat → Bool
  | [], [] => false
  | [], _ :: _ => true
  | _ :: _, [] => false
  | a :: as, b :: bs => decide (a < b) || (decide (a = b) && bytesLess as bs)

/-- Go's `a < b` on strings. Every character of an identifier is ASCII, so its code is its
single byte. -/
def strLess (a b : String) : Bool :=
  bytesLess (a.toList.map Char.toNat) (b.toList.map Char.toNat)

/-- Order on digit sequences: compared element by element from the most significant digit,
the first differing digit decides. -/
def digitsLess : List Int → List Int → Bool
  | [], [] => false
  | [], _ :: _ => true
  | _ :: _, [] => false
  | a :: as, b :: bs => decide (a < b) || (decide (a = b) && digitsLess as bs)

/-- A sequence of calls made one after the other, stopping at the first panic. Returns the
identifiers in call order and the final state. -/
def runCalls (rnd : Nat → Int) : GenState → List Int → Except Fault (List String × GenState)
  | s, [] => .ok ([], s)
  | s, clock :: clocks =>
      match next rnd s clock with
      | (_, .error f) => .error f
      | (s1, .ok idStr) =>
          match runCalls rnd s1 clocks with
          | .error f => .error f
          | .ok (ids, s2) => .ok (idStr :: ids, s2)

/-- Value of a digit sequence read as a base-64 number, most significant digit first. -/
def base64Value (digits : List Int) : Int :=
  digits.foldl (fun acc d => acc * 64 + d) 0

/-- Index of a character in the alphabet. -/
def idCharIndex (c : Char) : Int :=
  (idChars.toList.indexOf c : Nat)

/-- Decoding of a run of identifier characters: each character is mapped to its index in
`idChars` and the indices are read as a base-64 number, most significant digit first. -/
def decodeChars (cs : List Char) : Int :=
  base64Value (cs.map idCharIndex)

/-- Lines 38-42, 47-50 and 64-72 on their own: the identifier built from a clock reading and a
suffix (what `next` returns once the range check has passed and the suffix is settled). -/
def buildId (clock : Int) (suffix : List Int) : Except Fault String :=
  let stamped := timeStampLoop 8 clock (List.replicate 8 0)
  let id := copyTimeLoop 8 0 stamped.1 (List.replicate 20 0)
  match copyRandLoop 12 0 suffix id with
  | .error f => .error f
  | .ok id => idStrLoop id ""

/-- The eight digits written by lines 38-42 for a clock reading. -/
def timeStampChars (clock : Int) : List Int :=
  (timeStampLoop 8 clock (List.replicate 8 0)).1

/-- The twelve values the loop of lines 52-54 takes from `rand`, in draw order, when `k` values
have been taken before. -/
def drawnDigits (rnd : Nat → Int) (k : Nat) : List Int :=
  (List.range 12).map (fun i => rnd (k + i))

/-- The character line 70 appends for an index that passed the bounds check. -/
def digitChar (d : Int) : Char :=
  idChars.toList.getD d.toNat '-'

instance instDecidableEqExcept {ε α : Type} [DecidableEq ε] [DecidableEq α] :
    DecidableEq (Except ε α)
  | .ok a, .ok b => if h : a = b then isTrue (by rw [h]) else isFalse (fun e => h (by cases e; rfl))
  | .error a, .error b =>
      if h : a = b then isTrue (by rw [h]) else isFalse (fun e => h (by cases e; rfl))
  | .ok _, .error _ => isFalse (fun e => by cases e)
  | .error _, .ok _ => isFalse (fun e => by cases e)

/-! ## Auxiliary facts -/

theorem timeStampLoop_eight (n : Int) :
    timeStampLoop 8 n (List.replicate 8 0) =
      ([(((((((n.tdiv 64).tdiv 64).tdiv 64).tdiv 64).tdiv 64).tdiv 64).tdiv 64).tmod 64,
        ((((((n.tdiv 64).tdiv 64).tdiv 64).tdiv 64).tdiv 64).tdiv 64).tmod 64,
        (((((n.tdiv 64).tdiv 64).tdiv 64).tdiv 64).tdiv 64).tmod 64,
        ((((n.tdiv 64).tdiv 64).tdiv 64).tdiv 64).tmod 64,
        (((n.tdiv 64).tdiv 64).tdiv 64).tmod 64,
        ((n.tdiv 64).tdiv 64).tmod 64,
        (n.tdiv 64).tmod 64,
        n.tmod 64],
       (((((((n.tdiv 64).tdiv 64).tdiv 64).tdiv 64).tdiv 64).tdiv 64).tdiv 64).tdiv 64) := rfl

theorem tdiv_nonneg_eq (n : Int) (h : 0 ≤ n) : n.tdiv 64 = n / 64 :=
  Int.tdiv_eq_ediv h (by decide)

theorem tmod_nonneg_eq (n : Int) (h : 0 ≤ n) : n.tmod 64 = n % 64 :=
  Int.tmod_eq_emod h (by decide)

theorem timeStampLoop_nonneg (n : Int) (h : 0 ≤ n) :
    timeStampLoop 8 n (List.replicate 8 0) =
      ([n / 64 / 64 / 64 / 64 / 64 / 64 / 64 % 64, n / 64 / 64 / 64 / 64 / 64 / 64 % 64,
        n / 64 / 64 / 64 / 64 / 64 % 64, n / 64 / 64 / 64 / 64 % 64, n / 64 / 64 / 64 % 64,
        n / 64 / 64 % 64, n / 64 % 64, n % 64],
       n / 64 / 64 / 64 / 64 / 64 / 64 / 64 / 64) := by
  have h1 : 0 ≤ n / 64 := by omega
  have h2 : 0 ≤ n / 64 / 64 := by omega
  have h3 : 0 ≤ n / 64 / 64 / 64 := by omega
  have h4 : 0 ≤ n / 64 / 64 / 64 / 64 := by omega
  have h5 : 0 ≤ n / 64 / 64 / 64 / 64 / 64 := by omega
  have h6 : 0 ≤ n / 64 / 64 / 64 / 64 / 64 / 64 := by omega
  have h7 : 0 ≤ n / 64 / 64 / 64 / 64 / 64 / 64 / 64 := by omega
  rw [timeStampLoop_eight]
  simp only [tdiv_nonneg_eq n h, tmod_nonneg_eq n h, tdiv_nonneg_eq _ h1, tmod_nonneg_eq _ h1,
    tdiv_nonneg_eq _ h2, tmod_nonneg_eq _ h2, tdiv_nonneg_eq _ h3, tmod_nonneg_eq _ h3,
    tdiv_nonneg_eq _ h4, tmod_nonneg_eq _ h4, tdiv_nonneg_eq _ h5, tmod_nonneg_eq _ h5,
    tdiv_nonneg_eq _ h6, tmod_nonneg_eq _ h6, tdiv_nonneg_eq _ h7, tmod_nonneg_eq _ h7]

/-- For a clock reading that is not negative, the quotient left after the eight extractions
is zero exactly when the reading is below `2 ^ 48`. -/
theorem timeStampLoop_rest_eq_zero_iff (n : Int) (h : 0 ≤ n) :
    (timeStampLoop 8 n (List.replicate 8 0)).2 = 0 ↔ n < 2 ^ 48 := by
  rw [timeStampLoop_nonneg n h]
  show n / 64 / 64 / 64 / 64 / 64 / 64 / 64 / 64 = 0 ↔ n < 2 ^ 48
  norm_num
  omega

theorem timeStampChars_digits (n : Int) (h : 0 ≤ n) :
    ∀ d ∈ timeStampChars n, 0 ≤ d ∧ d ≤ 63 := by
  unfold timeStampChars
  rw [timeStampLoop_nonneg n h]
  intro d hd
  simp only [List.mem_cons, List.mem_singleton, List.not_mem_nil, or_false] at hd
  omega

theorem timeStampChars_length (n : Int) : (timeStampChars n).length = 8 := by
  unfold timeStampChars
  rw [timeStampLoop_eight]
  rfl

theorem base64Value_timeStampChars (n : Int) (h : 0 ≤ n) (h2 : n < 2 ^ 48) :
    base64Value (timeStampChars n) = n := by
  unfold timeStampChars
  rw [timeStampLoop_nonneg n h]
  simp only [base64Value, List.foldl_cons, List.foldl_nil]
  norm_num at h2
  omega


/-! ### Base-64 values -/

theorem base64Value_foldl (acc : Int) (ds : List Int) :
    ds.foldl (fun a d => a * 64 + d) acc = acc * 64 ^ ds.length + base64Value ds := by
  induction ds generalizing acc with
  | nil => simp [base64Value]
  | cons d ds ih =>
    simp only [base64Value, List.foldl_cons, List.length_cons]
    rw [ih, ih (0 * 64 + d)]
    ring

theorem base64Value_cons (d : Int) (ds : List Int) :
    base64Value (d :: ds) = d * 64 ^ ds.length + base64Value ds := by
  simp only [base64Value, List.foldl_cons]
  rw [base64Value_foldl]
  simp [base64Value]

theorem base64Value_append (xs ys : List Int) :
    base64Value (xs ++ ys) = base64Value xs * 64 ^ ys.length + base64Value ys := by
  simp only [base64Value, List.foldl_append]
  rw [base64Value_foldl]
  simp [base64Value]

theorem base64Value_nonneg (ds : List Int) (h : ∀ d ∈ ds, 0 ≤ d ∧ d ≤ 63) :
    0 ≤ base64Value ds := by
  induction ds with
  | nil => simp [base64Value]
  | cons d ds ih =>
    rw [base64Value_cons]
    have h1 := (h d (List.mem_cons_self _ _)).1
    have h2 := ih (fun x hx => h x (List.mem_cons_of_mem _ hx))
    positivity

theorem base64Value_lt (ds : List Int) (h : ∀ d ∈ ds, 0 ≤ d ∧ d ≤ 63) :
    base64Value ds < 64 ^ ds.length := by
  induction ds with
  | nil => simp [base64Value]
  | cons d ds ih =>
    rw [base64Value_cons, List.length_cons, pow_succ]
    have h1 := (h d (List.mem_cons_self _ _)).2
    have h2 := ih (fun x hx => h x (List.mem_cons_of_mem _ hx))
    have h3 : (0 : Int) < 64 ^ ds.length := by positivity
    nlinarith

theorem base64Value_replicate_zero (m : Nat) : base64Value (List.replicate m 0) = 0 := by
  induction m with
  | zero => simp [base64Value]
  | succ m ih => rw [List.replicate_succ, base64Value_cons, ih]; simp

theorem base64Value_replicate_max (m : Nat) :
    base64Value (List.replicate m 63) = 64 ^ m - 1 := by
  induction m with
  | zero => simp [base64Value]
  | succ m ih =>
    rw [List.replicate_succ, base64Value_cons, ih, List.length_replicate, pow_succ]
    ring

/-! ### The alphabet -/

theorem idChars_toList :
    idChars.toList =
      ['-', '0', '1', '2', '3', '4', '5', '6', '7', '8', '9', 'A', 'B', 'C', 'D', 'E', 'F', 'G',
       'H', 'I', 'J', 'K', 'L', 'M', 'N', 'O', 'P', 'Q', 'R', 'S', 'T', 'U', 'V', 'W', 'X', 'Y',
       'Z', '_', 'a', 'b', 'c', 'd', 'e', 'f', 'g', 'h', 'i', 'j', 'k', 'l', 'm', 'n', 'o', 'p',
       'q', 'r', 's', 't', 'u', 'v', 'w', 'x', 'y', 'z'] := rfl

theorem idChars_length : idChars.length = 64 := rfl

theorem idChars_codes_sorted :
    (idChars.toList.map Char.toNat).Pairwise (· < ·) := by
  rw [idChars_toList]
  decide

theorem digitChar_code_lt (a b : Int) (ha : 0 ≤ a) (hab : a < b) (hb : b ≤ 63) :
    (digitChar a).toNat < (digitChar b).toNat := by
  have hs := idChars_codes_sorted
  rw [List.pairwise_iff_getElem] at hs
  have hlen : (idChars.toList.map Char.toNat).length = 64 := rfl
  have hlen2 : idChars.toList.length = 64 := rfl
  have h1 : a.toNat < 64 := by omega
  have h2 : b.toNat < 64 := by omega
  have := hs a.toNat b.toNat (by omega) (by omega) (by omega)
  simp only [List.getElem_map] at this
  unfold digitChar
  rw [List.getD_eq_getElem _ _ (by omega), List.getD_eq_getElem _ _ (by omega)]
  exact this

theorem digitChar_mem (d : Int) (h0 : 0 ≤ d) (h1 : d ≤ 63) : digitChar d ∈ idChars.toList := by
  have hlen2 : idChars.toList.length = 64 := rfl
  unfold digitChar
  rw [List.getD_eq_getElem _ _ (by omega)]
  exact List.getElem_mem _

theorem idCharIndex_digitChar (d : Int) (h0 : 0 ≤ d) (h1 : d ≤ 63) :
    idCharIndex (digitChar d) = d := by
  obtain ⟨k, rfl⟩ := Int.eq_ofNat_of_zero_le h0
  have hk : k < 64 := by omega
  simp only [idCharIndex, digitChar, Int.toNat_ofNat]
  interval_cases k <;> rfl


/-! ### Byte-wise comparison -/

theorem bytesLess_trans (a b c : List Nat) (hab : bytesLess a b = true)
    (hbc : bytesLess b c = true) : bytesLess a c = true := by
  induction a generalizing b c with
  | nil =>
    cases b with
    | nil => simp [bytesLess] at hab
    | cons y ys =>
      cases c with
      | nil => simp [bytesLess] at hbc
      | cons z zs => simp [bytesLess]
  | cons x xs ih =>
    cases b with
    | nil => simp [bytesLess] at hab
    | cons y ys =>
      cases c with
      | nil => simp [bytesLess] at hbc
      | cons z zs =>
        simp only [bytesLess, Bool.or_eq_true, Bool.and_eq_true, decide_eq_true_eq] at hab hbc ⊢
        rcases hab with h1 | ⟨h1, h2⟩
        · rcases hbc with h3 | ⟨h3, _⟩
          · left; omega
          · left; omega
        · rcases hbc with h3 | ⟨h3, h4⟩
          · left; omega
          · right; exact ⟨by omega, ih ys zs h2 h4⟩

theorem bytesLess_append_left (p a b : List Nat) :
    bytesLess (p ++ a) (p ++ b) = bytesLess a b := by
  induction p with
  | nil => rfl
  | cons x xs ih => simp [bytesLess, ih]

theorem bytesLess_irrefl (a : List Nat) : bytesLess a a = false := by
  induction a with
  | nil => rfl
  | cons x xs ih => simp [bytesLess, ih]

/-- Digit sequences of one length are ordered by their base-64 value the same way their
encodings are ordered byte-wise. -/
theorem bytesLess_of_value_lt (A B : List Int) (hlen : A.length = B.length)
    (hA : ∀ d ∈ A, 0 ≤ d ∧ d ≤ 63) (hB : ∀ d ∈ B, 0 ≤ d ∧ d ≤ 63)
    (h : base64Value A < base64Value B) :
    bytesLess ((A.map digitChar).map Char.toNat) ((B.map digitChar).map Char.toNat) = true := by
  induction A generalizing B with
  | nil =>
    cases B with
    | nil => simp [base64Value] at h
    | cons b bs => simp at hlen
  | cons a as ih =>
    cases B with
    | nil => simp at hlen
    | cons b bs =>
      have hl : as.length = bs.length := by simpa using hlen
      have hA2 : ∀ d ∈ as, 0 ≤ d ∧ d ≤ 63 := fun x hx => hA x (List.mem_cons_of_mem _ hx)
      have hB2 : ∀ d ∈ bs, 0 ≤ d ∧ d ≤ 63 := fun x hx => hB x (List.mem_cons_of_mem _ hx)
      have ha := hA a (List.mem_cons_self _ _)
      have hb := hB b (List.mem_cons_self _ _)
      rw [base64Value_cons, base64Value_cons, hl] at h
      have hva0 := base64Value_nonneg as hA2
      have hvb1 := base64Value_lt bs hB2
      have hva1 := base64Value_lt as hA2
      have hvb0 := base64Value_nonneg bs hB2
      rw [hl] at hva1
      have hP : (0 : Int) < 64 ^ bs.length := by positivity
      simp only [List.map_cons, bytesLess, Bool.or_eq_true, Bool.and_eq_true, decide_eq_true_eq]
      rcases lt_trichotomy a b with hlt | heq | hgt
      · left; exact digitChar_code_lt a b ha.1 hlt hb.2
      · right
        subst heq
        refine ⟨rfl, ih bs hl hA2 hB2 ?_⟩
        linarith
      · exfalso
        have : (b + 1) * 64 ^ bs.length ≤ a * 64 ^ bs.length :=
          mul_le_mul_of_nonneg_right (by omega) (le_of_lt hP)
        nlinarith

/-! ### Building the string -/

theorem idCharAt_digit (d : Int) (h0 : 0 ≤ d) (h1 : d ≤ 63) : idCharAt d = .ok (digitChar d) := by
  unfold idCharAt digitChar
  rw [idChars_length]
  have : 0 ≤ d ∧ d < ((64 : Nat) : Int) := ⟨h0, by omega⟩
  rw [if_pos this]

theorem idCharAt_fault (d : Int) (h : d < 0 ∨ 63 < d) :
    idCharAt d = .error (.indexOutOfRange d 64) := by
  unfold idCharAt
  rw [idChars_length]
  have : ¬ (0 ≤ d ∧ d < ((64 : Nat) : Int)) := by omega
  rw [if_neg this]

theorem idStrLoop_digits (ds : List Int) (acc : String) (h : ∀ d ∈ ds, 0 ≤ d ∧ d ≤ 63) :
    idStrLoop ds acc = .ok ⟨acc.data ++ ds.map digitChar⟩ := by
  induction ds generalizing acc with
  | nil => simp [idStrLoop]
  | cons d ds ih =>
    have hd := h d (List.mem_cons_self _ _)
    simp only [idStrLoop, idCharAt_digit d hd.1 hd.2]
    rw [ih _ (fun x hx => h x (List.mem_cons_of_mem _ hx))]
    simp

/-- The string loop returns only when every element is an index into the alphabet. -/
theorem idStrLoop_ok_digits (ds : List Int) (acc idStr : String)
    (h : idStrLoop ds acc = .ok idStr) : ∀ d ∈ ds, 0 ≤ d ∧ d ≤ 63 := by
  induction ds generalizing acc with
  | nil => simp
  | cons d ds ih =>
    by_cases hd : 0 ≤ d ∧ d ≤ 63
    · simp only [idStrLoop, idCharAt_digit d hd.1 hd.2] at h
      intro x hx
      rcases List.mem_cons.1 hx with rfl | hx
      · exact hd
      · exact ih _ h x hx
    · have : d < 0 ∨ 63 < d := by omega
      simp [idStrLoop, idCharAt_fault d this] at h


/-! ### The loops over the twelve suffix digits -/

theorem list_length_twelve (l : List Int) (h : l.length = 12) :
    ∃ a0 a1 a2 a3 a4 a5 a6 a7 a8 a9 a10 a11,
      l = [a0, a1, a2, a3, a4, a5, a6, a7, a8, a9, a10, a11] := by
  match l, h with
  | [a0, a1, a2, a3, a4, a5, a6, a7, a8, a9, a10, a11], _ =>
    exact ⟨a0, a1, a2, a3, a4, a5, a6, a7, a8, a9, a10, a11, rfl⟩

theorem list_length_eight (l : List Int) (h : l.length = 8) :
    ∃ a0 a1 a2 a3 a4 a5 a6 a7, l = [a0, a1, a2, a3, a4, a5, a6, a7] := by
  match l, h with
  | [a0, a1, a2, a3, a4, a5, a6, a7], _ => exact ⟨a0, a1, a2, a3, a4, a5, a6, a7, rfl⟩

theorem copyTimeLoop_eight (ts : List Int) (h : ts.length = 8) :
    copyTimeLoop 8 0 ts (List.replicate 20 0) = ts ++ List.replicate 12 0 := by
  obtain ⟨a0, a1, a2, a3, a4, a5, a6, a7, rfl⟩ := list_length_eight ts h
  rfl

theorem copyRandLoop_twelve (ts rc : List Int) (hts : ts.length = 8) (hrc : rc.length = 12) :
    copyRandLoop 12 0 rc (ts ++ List.replicate 12 0) = .ok (ts ++ rc) := by
  obtain ⟨a0, a1, a2, a3, a4, a5, a6, a7, rfl⟩ := list_length_eight ts hts
  obtain ⟨b0, b1, b2, b3, b4, b5, b6, b7, b8, b9, b10, b11, rfl⟩ := list_length_twelve rc hrc
  rfl

theorem drawLoop_twelve (rnd : Nat → Int) (s : GenState) (h : s.lastRandChars.length = 12) :
    drawLoop rnd 12 0 s =
      ({ lastPushTime := s.lastPushTime, lastRandChars := drawnDigits rnd s.randDraws,
         randDraws := s.randDraws + 12 }, .ok ()) := by
  obtain ⟨t, rc, k⟩ := s
  obtain ⟨b0, b1, b2, b3, b4, b5, b6, b7, b8, b9, b10, b11, rfl⟩ := list_length_twelve rc h
  rfl

theorem drawnDigits_length (rnd : Nat → Int) (k : Nat) : (drawnDigits rnd k).length = 12 := by
  simp [drawnDigits]

theorem drawnDigits_mem (rnd : Nat → Int) (k : Nat) (d : Int) :
    d ∈ drawnDigits rnd k ↔ ∃ i, i < 12 ∧ rnd (k + i) = d := by
  simp [drawnDigits]


/-! ### The carry scan -/

theorem getD_at_length (L : List Int) (x : Int) (post : List Int) (n : Nat) (h : L.length = n) :
    (L ++ x :: post).getD n 0 = x := by
  subst h
  induction L with
  | nil => rfl
  | cons a L ih => simpa using ih

theorem set_at_length (L : List Int) (x y : Int) (post : List Int) (n : Nat)
    (h : L.length = n) : (L ++ x :: post).set n y = L ++ y :: post := by
  subst h
  induction L with
  | nil => rfl
  | cons a L ih => simp

theorem carryLoop_stop (pre : List Int) (d : Int) (hd : d ≠ 63) (m : Nat) (post : List Int) :
    carryLoop (pre.length + 1 + m) (pre ++ d :: (List.replicate m 63 ++ post)) =
      (pre ++ d :: (List.replicate m 0 ++ post), .ok (pre.length : Int)) := by
  induction m generalizing post with
  | zero =>
    have hlt : pre.length < (pre ++ d :: post).length := by simp
    simp only [List.replicate_zero, List.nil_append, Nat.add_zero]
    rw [carryLoop, if_pos hlt, getD_at_length pre d post _ rfl, if_neg hd]
  | succ m ih =>
    have e1 : pre ++ d :: (List.replicate (m + 1) 63 ++ post) =
        (pre ++ d :: List.replicate m 63) ++ 63 :: post := by
      rw [List.replicate_succ']; simp
    have e2 : (pre ++ d :: List.replicate m 63).length = pre.length + 1 + m := by
      simp only [List.length_append, List.length_cons, List.length_replicate]; omega
    have hlt : pre.length + 1 + m <
        ((pre ++ d :: List.replicate m 63) ++ 63 :: post).length := by
      simp only [List.length_append, List.length_cons, List.length_replicate]; omega
    rw [e1, ← Nat.add_assoc, carryLoop, if_pos hlt, getD_at_length _ _ _ _ e2, if_pos rfl,
      set_at_length _ _ _ _ _ e2]
    have e4 : (pre ++ d :: List.replicate m 63) ++ 0 :: post =
        pre ++ d :: (List.replicate m 63 ++ 0 :: post) := by simp
    rw [e4, ih]
    congr 2
    rw [List.replicate_succ']; simp

theorem carryLoop_all_max (m : Nat) (post : List Int) :
    carryLoop m (List.replicate m 63 ++ post) = (List.replicate m 0 ++ post, .ok (-1)) := by
  induction m generalizing post with
  | zero => rfl
  | succ m ih =>
    have e1 : List.replicate (m + 1) 63 ++ post = List.replicate m 63 ++ 63 :: post := by
      rw [List.replicate_succ']; simp
    have hlt : m < (List.replicate m 63 ++ 63 :: post).length := by simp
    have hm : (List.replicate m (63 : Int)).length = m := by simp
    rw [e1, carryLoop, if_pos hlt, getD_at_length _ _ _ _ hm, if_pos rfl,
      set_at_length _ _ _ _ _ hm, ih]
    congr 1
    rw [List.replicate_succ']; simp

/-- A digit sequence is all 63s, or has a last digit that is not 63 followed by 63s only. -/
theorem digits_split (l : List Int) :
    l = List.replicate l.length 63 ∨
      ∃ pre d m, d ≠ 63 ∧ l = pre ++ d :: List.replicate m 63 := by
  induction l using List.reverseRecOn with
  | nil => left; rfl
  | append_singleton l a ih =>
    by_cases ha : a = 63
    · subst ha
      rcases ih with h | ⟨pre, d, m, hd, h⟩
      · left
        rw [List.length_append, List.length_singleton, List.replicate_succ', ← h]
      · right
        refine ⟨pre, d, m + 1, hd, ?_⟩
        rw [List.replicate_succ', h]; simp
    · right
      exact ⟨l, a, 0, ha, by simp⟩

theorem incrementRand_stop (t : Int) (k : Nat) (pre : List Int) (d : Int) (hd : d ≠ 63) (m : Nat)
    (hlen : pre.length + 1 + m = 12) :
    incrementRand { lastPushTime := t, lastRandChars := pre ++ d :: List.replicate m 63,
                    randDraws := k } =
      ({ lastPushTime := t, lastRandChars := pre ++ wrapInt64 (d + 1) :: List.replicate m 0,
         randDraws := k }, .ok ()) := by
  have h := carryLoop_stop pre d hd m []
  simp only [List.append_nil] at h
  rw [hlen] at h
  have hlt : (0 : Int) ≤ (pre.length : Int) ∧
      (pre.length : Int) < ((pre ++ d :: List.replicate m 0).length : Nat) := by
    constructor
    · omega
    · simp only [List.length_append, List.length_cons, List.length_replicate]; omega
  simp only [incrementRand, h, if_pos hlt, Int.toNat_ofNat, getD_at_length _ _ _ _ rfl,
    set_at_length _ _ _ _ _ rfl]

theorem incrementRand_all_max (t : Int) (k : Nat) :
    incrementRand { lastPushTime := t, lastRandChars := List.replicate 12 63, randDraws := k } =
      ({ lastPushTime := t, lastRandChars := List.replicate 12 0, randDraws := k },
        .error (.indexOutOfRange (-1) 12)) := rfl


/-! ### One call -/

/-- The eight digits and the quotient left over always recompose the clock reading. -/
theorem timeStampLoop_recompose (n : Int) :
    base64Value (timeStampChars n) +
      64 ^ 8 * (timeStampLoop 8 n (List.replicate 8 0)).2 = n := by
  unfold timeStampChars
  rw [timeStampLoop_eight]
  simp only [base64Value, List.foldl_cons, List.foldl_nil]
  have e0 := Int.tmod_add_tdiv n 64
  have e1 := Int.tmod_add_tdiv (n.tdiv 64) 64
  have e2 := Int.tmod_add_tdiv ((n.tdiv 64).tdiv 64) 64
  have e3 := Int.tmod_add_tdiv (((n.tdiv 64).tdiv 64).tdiv 64) 64
  have e4 := Int.tmod_add_tdiv ((((n.tdiv 64).tdiv 64).tdiv 64).tdiv 64) 64
  have e5 := Int.tmod_add_tdiv (((((n.tdiv 64).tdiv 64).tdiv 64).tdiv 64).tdiv 64) 64
  have e6 := Int.tmod_add_tdiv ((((((n.tdiv 64).tdiv 64).tdiv 64).tdiv 64).tdiv 64).tdiv 64) 64
  have e7 := Int.tmod_add_tdiv
    (((((((n.tdiv 64).tdiv 64).tdiv 64).tdiv 64).tdiv 64).tdiv 64).tdiv 64) 64
  norm_num
  omega

/-- When the range check passes and the eight digits index the alphabet, the clock reading
lies in `[0, 2 ^ 48)`. -/
theorem clock_range_of_digits (n : Int) (h0 : (timeStampLoop 8 n (List.replicate 8 0)).2 = 0)
    (hd : ∀ d ∈ timeStampChars n, 0 ≤ d ∧ d ≤ 63) : 0 ≤ n ∧ n < 2 ^ 48 := by
  have h := timeStampLoop_recompose n
  rw [h0] at h
  have h1 := base64Value_nonneg _ hd
  have h2 := base64Value_lt _ hd
  rw [timeStampChars_length] at h2
  norm_num at h h2 ⊢
  omega

theorem next_clockRange (rnd : Nat → Int) (s : GenState) (clock : Int)
    (h : (timeStampLoop 8 clock (List.replicate 8 0)).2 ≠ 0) :
    next rnd s clock = ({ s with lastPushTime := clock }, .error .clockRange) := by
  simp only [next, if_pos h]

theorem next_fresh (rnd : Nat → Int) (s : GenState) (clock : Int)
    (hlen : s.lastRandChars.length = 12)
    (h0 : (timeStampLoop 8 clock (List.replicate 8 0)).2 = 0) (hne : clock ≠ s.lastPushTime) :
    next rnd s clock =
      ({ lastPushTime := clock, lastRandChars := drawnDigits rnd s.randDraws,
         randDraws := s.randDraws + 12 },
        idStrLoop (timeStampChars clock ++ drawnDigits rnd s.randDraws) "") := by
  have hts : (timeStampLoop 8 clock (List.replicate 8 0)).1.length = 8 :=
    timeStampChars_length clock
  simp only [next, h0, ne_eq, not_true_eq_false, if_false, hne, decide_False, Bool.not_false,
    if_true]
  rw [drawLoop_twelve rnd ⟨clock, s.lastRandChars, s.randDraws⟩ hlen]
  simp only [copyTimeLoop_eight _ hts,
    copyRandLoop_twelve _ _ hts (drawnDigits_length rnd s.randDraws), timeStampChars]

theorem next_dup_stop (rnd : Nat → Int) (t : Int) (k : Nat) (pre : List Int) (d : Int)
    (hd : d ≠ 63) (m : Nat) (hlen : pre.length + 1 + m = 12)
    (h0 : (timeStampLoop 8 t (List.replicate 8 0)).2 = 0) :
    next rnd { lastPushTime := t, lastRandChars := pre ++ d :: List.replicate m 63,
               randDraws := k } t =
      ({ lastPushTime := t, lastRandChars := pre ++ wrapInt64 (d + 1) :: List.replicate m 0,
         randDraws := k },
        idStrLoop (timeStampChars t ++ (pre ++ wrapInt64 (d + 1) :: List.replicate m 0)) "") := by
  have hts : (timeStampLoop 8 t (List.replicate 8 0)).1.length = 8 := timeStampChars_length t
  have hl : (pre ++ wrapInt64 (d + 1) :: List.replicate m 0).length = 12 := by
    simp only [List.length_append, List.length_cons, List.length_replicate]; omega
  simp only [next, h0, ne_eq, not_true_eq_false, if_false, decide_True, Bool.not_true,
    Bool.false_eq_true]
  rw [incrementRand_stop t k pre d hd m hlen]
  simp only [copyTimeLoop_eight _ hts, copyRandLoop_twelve _ _ hts hl, timeStampChars]

theorem next_dup_all_max (rnd : Nat → Int) (t : Int) (k : Nat)
    (h0 : (timeStampLoop 8 t (List.replicate 8 0)).2 = 0) :
    next rnd { lastPushTime := t, lastRandChars := List.replicate 12 63, randDraws := k } t =
      ({ lastPushTime := t, lastRandChars := List.replicate 12 0, randDraws := k },
        .error (.indexOutOfRange (-1) 12)) := by
  simp only [next, h0, ne_eq, not_true_eq_false, if_false, decide_True, Bool.not_true,
    Bool.false_eq_true]
  rw [incrementRand_all_max t k]

/-! ### Calls that return -/

theorem wrapInt64_digit (d : Int) (h0 : 0 ≤ d) (h1 : d ≤ 63) : wrapInt64 (d + 1) = d + 1 := by
  unfold wrapInt64
  omega

theorem buildId_eq (clock : Int) (suffix : List Int) (h : suffix.length = 12) :
    buildId clock suffix = idStrLoop (timeStampChars clock ++ suffix) "" := by
  have hts : (timeStampLoop 8 clock (List.replicate 8 0)).1.length = 8 :=
    timeStampChars_length clock
  simp only [buildId, copyTimeLoop_eight _ hts, copyRandLoop_twelve _ _ hts h, timeStampChars]

/-- What a call that returns an identifier leaves behind and returns. -/
theorem next_ok_inv (rnd : Nat → Int) (s s1 : GenState) (clock : Int) (idStr : String)
    (hlen : s.lastRandChars.length = 12) (h : next rnd s clock = (s1, .ok idStr)) :
    (0 ≤ clock ∧ clock < 2 ^ 48) ∧ s1.lastPushTime = clock ∧ s1.lastRandChars.length = 12 ∧
      (∀ d ∈ s1.lastRandChars, 0 ≤ d ∧ d ≤ 63) ∧
      idStr = ⟨(timeStampChars clock ++ s1.lastRandChars).map digitChar⟩ := by
  by_cases h0 : (timeStampLoop 8 clock (List.replicate 8 0)).2 = 0
  · have key : ∀ l : List Int, l.length = 12 → s1.lastPushTime = clock → s1.lastRandChars = l →
        idStrLoop (timeStampChars clock ++ l) "" = .ok idStr →
        (0 ≤ clock ∧ clock < 2 ^ 48) ∧ s1.lastPushTime = clock ∧ s1.lastRandChars.length = 12 ∧
          (∀ d ∈ s1.lastRandChars, 0 ≤ d ∧ d ≤ 63) ∧
          idStr = ⟨(timeStampChars clock ++ s1.lastRandChars).map digitChar⟩ := by
      intro l hl ht hs hid
      have hdig := idStrLoop_ok_digits _ _ _ hid
      have hts : ∀ d ∈ timeStampChars clock, 0 ≤ d ∧ d ≤ 63 :=
        fun d hd => hdig d (List.mem_append_left _ hd)
      have hsuf : ∀ d ∈ l, 0 ≤ d ∧ d ≤ 63 := fun d hd => hdig d (List.mem_append_right _ hd)
      rw [idStrLoop_digits _ _ hdig] at hid
      refine ⟨clock_range_of_digits clock h0 hts, ht, by rw [hs]; exact hl, by rw [hs]; exact hsuf,
        ?_⟩
      rw [hs]
      have := Except.ok.inj hid
      rw [← this]
      simp
    by_cases hdup : clock = s.lastPushTime
    · obtain ⟨t, l, k⟩ := s
      simp only at hdup hlen
      subst hdup
      rcases digits_split l with hall | ⟨pre, d, m, hd, hl⟩
      · rw [hlen] at hall
        subst hall
        rw [next_dup_all_max rnd clock k h0] at h
        simp at h
      · subst hl
        have hlen2 : pre.length + 1 + m = 12 := by
          simp only [List.length_append, List.length_cons, List.length_replicate] at hlen; omega
        rw [next_dup_stop rnd clock k pre d hd m hlen2 h0] at h
        have h1 := (Prod.mk.inj h).1
        have h2 := (Prod.mk.inj h).2
        refine key (pre ++ wrapInt64 (d + 1) :: List.replicate m 0) ?_ ?_ ?_ h2
        · simp only [List.length_append, List.length_cons, List.length_replicate]; omega
        · rw [← h1]
        · rw [← h1]
    · rw [next_fresh rnd s clock hlen h0 hdup] at h
      have h1 := (Prod.mk.inj h).1
      have h2 := (Prod.mk.inj h).2
      refine key (drawnDigits rnd s.randDraws) (drawnDigits_length _ _) ?_ ?_ h2
      · rw [← h1]
      · rw [← h1]
  · rw [next_clockRange rnd s clock h0] at h
    simp at h

/-- Identifiers built from in-range digits compare like the pairs (clock, suffix value). -/
theorem strLess_of_lex (t1 t2 : Int) (l1 l2 : List Int)
    (ht1 : 0 ≤ t1 ∧ t1 < 2 ^ 48) (ht2 : 0 ≤ t2 ∧ t2 < 2 ^ 48)
    (hl1 : l1.length = 12) (hl2 : l2.length = 12)
    (hd1 : ∀ d ∈ l1, 0 ≤ d ∧ d ≤ 63) (hd2 : ∀ d ∈ l2, 0 ≤ d ∧ d ≤ 63)
    (h : t1 < t2 ∨ (t1 = t2 ∧ base64Value l1 < base64Value l2)) :
    strLess ⟨(timeStampChars t1 ++ l1).map digitChar⟩
      ⟨(timeStampChars t2 ++ l2).map digitChar⟩ = true := by
  unfold strLess
  show bytesLess (((timeStampChars t1 ++ l1).map digitChar).map Char.toNat)
    (((timeStampChars t2 ++ l2).map digitChar).map Char.toNat) = true
  apply bytesLess_of_value_lt
  · simp [timeStampChars_length, hl1, hl2]
  · intro d hd
    rcases List.mem_append.1 hd with hd | hd
    · exact timeStampChars_digits t1 ht1.1 d hd
    · exact hd1 d hd
  · intro d hd
    rcases List.mem_append.1 hd with hd | hd
    · exact timeStampChars_digits t2 ht2.1 d hd
    · exact hd2 d hd
  · rw [base64Value_append, base64Value_append, hl1, hl2,
      base64Value_timeStampChars t1 ht1.1 ht1.2, base64Value_timeStampChars t2 ht2.1 ht2.2]
    have a1 := base64Value_nonneg l1 hd1
    have a2 := base64Value_lt l1 hd1
    have b1 := base64Value_nonneg l2 hd2
    have b2 := base64Value_lt l2 hd2
    rw [hl1] at a2
    rw [hl2] at b2
    norm_num at a2 b2 ⊢
    rcases h with h | ⟨h, h'⟩
    · omega
    · omega


theorem base64Value_succ (pre : List Int) (d : Int) (m : Nat) :
    base64Value (pre ++ (d + 1) :: List.replicate m 0) =
      base64Value (pre ++ d :: List.replicate m 63) + 1 := by
  rw [base64Value_append, base64Value_append, base64Value_cons, base64Value_cons,
    base64Value_replicate_zero, base64Value_replicate_max]
  simp only [List.length_cons, List.length_replicate]
  ring

theorem succ_digits_range (pre : List Int) (d : Int) (m : Nat) (hd : d ≠ 63)
    (h : ∀ x ∈ pre ++ d :: List.replicate m 63, 0 ≤ x ∧ x ≤ 63) :
    ∀ x ∈ pre ++ (d + 1) :: List.replicate m 0, 0 ≤ x ∧ x ≤ 63 := by
  intro x hx
  have hd2 := h d (by simp)
  rcases List.mem_append.1 hx with hx | hx
  · exact h x (List.mem_append_left _ hx)
  · rcases List.mem_cons.1 hx with rfl | hx
    · omega
    · have := List.eq_of_mem_replicate hx
      omega

/-- A duplicate-timestamp call on a suffix that is not all 63s returns, and the stored suffix
goes up by one. -/
theorem next_dup_returns (rnd : Nat → Int) (s : GenState) (hlen : s.lastRandChars.length = 12)
    (hdig : ∀ d ∈ s.lastRandChars, 0 ≤ d ∧ d ≤ 63)
    (ht : 0 ≤ s.lastPushTime ∧ s.lastPushTime < 2 ^ 48)
    (hno : s.lastRandChars ≠ List.replicate 12 63) :
    ∃ s1 idStr, next rnd s s.lastPushTime = (s1, .ok idStr) ∧ s1.randDraws = s.randDraws ∧
      base64Value s1.lastRandChars = base64Value s.lastRandChars + 1 := by
  obtain ⟨t, l, k⟩ := s
  simp only at hlen hdig ht hno ⊢
  have h0 := (timeStampLoop_rest_eq_zero_iff t ht.1).2 ht.2
  rcases digits_split l with hall | ⟨pre, d, m, hd, hl⟩
  · rw [hlen] at hall
    exact absurd hall hno
  · subst hl
    have hlen2 : pre.length + 1 + m = 12 := by
      simp only [List.length_append, List.length_cons, List.length_replicate] at hlen; omega
    have hd2 := hdig d (by simp)
    have hnew := succ_digits_range pre d m hd hdig
    have hall : ∀ x ∈ timeStampChars t ++ (pre ++ (d + 1) :: List.replicate m 0),
        0 ≤ x ∧ x ≤ 63 := by
      intro x hx
      rcases List.mem_append.1 hx with hx | hx
      · exact timeStampChars_digits t ht.1 x hx
      · exact hnew x hx
    refine ⟨⟨t, pre ++ (d + 1) :: List.replicate m 0, k⟩,
      ⟨"".data ++ (timeStampChars t ++ (pre ++ (d + 1) :: List.replicate m 0)).map digitChar⟩,
      ?_, rfl, base64Value_succ pre d m⟩
    rw [next_dup_stop rnd t k pre d hd m hlen2 h0, wrapInt64_digit d hd2.1 hd2.2,
      idStrLoop_digits _ _ hall]

/-- A call returns whenever the state, the clock and the drawn digits are in range and the
suffix does not overflow. -/
theorem next_returns (rnd : Nat → Int) (s : GenState) (clock : Int)
    (hlen : s.lastRandChars.length = 12) (hdig : ∀ d ∈ s.lastRandChars, 0 ≤ d ∧ d ≤ 63)
    (hclock : 0 ≤ clock ∧ clock < 2 ^ 48)
    (hrnd : ∀ i, i < 12 → 0 ≤ rnd (s.randDraws + i) ∧ rnd (s.randDraws + i) ≤ 63)
    (hno : ¬ (clock = s.lastPushTime ∧ s.lastRandChars = List.replicate 12 63)) :
    ∃ s1 idStr, next rnd s clock = (s1, .ok idStr) := by
  by_cases hdup : clock = s.lastPushTime
  · subst hdup
    obtain ⟨s1, idStr, h, -⟩ := next_dup_returns rnd s hlen hdig hclock (fun e => hno ⟨rfl, e⟩)
    exact ⟨s1, idStr, h⟩
  · have h0 := (timeStampLoop_rest_eq_zero_iff clock hclock.1).2 hclock.2
    rw [next_fresh rnd s clock hlen h0 hdup, idStrLoop_digits]
    · exact ⟨_, _, rfl⟩
    · intro x hx
      rcases List.mem_append.1 hx with hx | hx
      · exact timeStampChars_digits clock hclock.1 x hx
      · obtain ⟨i, hi, rfl⟩ := (drawnDigits_mem rnd s.randDraws x).1 hx
        exact hrnd i hi

/-- A call that returns after a state with in-range digits returns an identifier above the
one that state stands for, as long as the clock did not go back. -/
theorem next_after (rnd : Nat → Int) (s s1 : GenState) (clock : Int) (idStr : String)
    (hlen : s.lastRandChars.length = 12) (hdig : ∀ d ∈ s.lastRandChars, 0 ≤ d ∧ d ≤ 63)
    (ht : 0 ≤ s.lastPushTime) (hle : s.lastPushTime ≤ clock)
    (h : next rnd s clock = (s1, .ok idStr)) :
    strLess ⟨(timeStampChars s.lastPushTime ++ s.lastRandChars).map digitChar⟩ idStr = true := by
  obtain ⟨hclock, -, hl1, hd1, hid⟩ := next_ok_inv rnd s s1 clock idStr hlen h
  rw [hid]
  apply strLess_of_lex _ _ _ _ ⟨ht, by omega⟩ hclock hlen hl1 hdig hd1
  rcases lt_or_eq_of_le hle with hlt | heq
  · exact Or.inl hlt
  · right
    refine ⟨heq, ?_⟩
    subst heq
    have hno : s.lastRandChars ≠ List.replicate 12 63 := by
      intro e
      obtain ⟨t, l, k⟩ := s
      simp only at e
      subst e
      rw [next_dup_all_max rnd t k ((timeStampLoop_rest_eq_zero_iff t hclock.1).2 hclock.2)] at h
      simp at h
    obtain ⟨s2, id2, h2, -, hv⟩ := next_dup_returns rnd s hlen hdig hclock hno
    rw [h] at h2
    have := (Prod.mk.inj h2).1
    rw [this, hv]
    omega

theorem decodeChars_map_digitChar (ds : List Int) (h : ∀ d ∈ ds, 0 ≤ d ∧ d ≤ 63) :
    decodeChars (ds.map digitChar) = base64Value ds := by
  unfold decodeChars
  congr 1
  rw [List.map_map]
  conv_rhs => rw [← List.map_id ds]
  apply List.map_congr_left
  intro d hd
  have := h d hd
  simp [idCharIndex_digitChar d this.1 this.2]

/-! ### Runs of calls -/

theorem runCalls_cons_ok (rnd : Nat → Int) (s s1 : GenState) (t : Int) (ts : List Int)
    (ids : List String) (h : runCalls rnd s (t :: ts) = .ok (ids, s1)) :
    ∃ s2 idStr ids2, next rnd s t = (s2, .ok idStr) ∧ runCalls rnd s2 ts = .ok (ids2, s1) ∧
      ids = idStr :: ids2 := by
  rw [runCalls] at h
  rcases hn : next rnd s t with ⟨s2, _ | idStr⟩
  · rw [hn] at h; simp at h
  · rw [hn] at h
    dsimp only at h
    rcases hr : runCalls rnd s2 ts with _ | ⟨ids2, s3⟩
    · rw [hr] at h; simp at h
    · rw [hr] at h
      dsimp only at h
      have h1 := (Prod.mk.inj (Except.ok.inj h)).1
      have h2 := (Prod.mk.inj (Except.ok.inj h)).2
      subst h2
      exact ⟨s2, idStr, ids2, rfl, hr, h1.symm⟩

/-- Runs that start in a state with in-range digits: every identifier is above the one the
start state stands for, and the identifiers increase. -/
theorem runCalls_increasing (rnd : Nat → Int) (clocks : List Int) :
    ∀ (s s1 : GenState) (ids : List String), s.lastRandChars.length = 12 →
      (∀ d ∈ s.lastRandChars, 0 ≤ d ∧ d ≤ 63) → 0 ≤ s.lastPushTime →
      (∀ t ∈ clocks, s.lastPushTime ≤ t) → clocks.Pairwise (· ≤ ·) →
      runCalls rnd s clocks = .ok (ids, s1) →
      (∀ x ∈ ids,
        strLess ⟨(timeStampChars s.lastPushTime ++ s.lastRandChars).map digitChar⟩ x = true) ∧
      ids.Pairwise (fun a b => strLess a b = true) := by
  induction clocks with
  | nil =>
    intro s s1 ids _ _ _ _ _ h
    simp only [runCalls] at h
    have := (Prod.mk.inj (Except.ok.inj h)).1
    subst this
    simp
  | cons t ts ih =>
    intro s s1 ids hlen hdig ht hge hmono h
    obtain ⟨s2, idStr, ids2, hn, hr, rfl⟩ := runCalls_cons_ok rnd s s1 t ts ids h
    obtain ⟨hclock, ht2, hl2, hd2, hid⟩ := next_ok_inv rnd s s2 t idStr hlen hn
    have hfirst := next_after rnd s s2 t idStr hlen hdig ht (hge t (List.mem_cons_self _ _)) hn
    have hmono2 := List.pairwise_cons.1 hmono
    have hrec := ih s2 s1 ids2 hl2 hd2 (by rw [ht2]; exact hclock.1)
      (fun x hx => by rw [ht2]; exact hmono2.1 x hx) hmono2.2 hr
    rw [ht2, ← hid] at hrec
    refine ⟨?_, List.pairwise_cons.2 ⟨hrec.1, hrec.2⟩⟩
    intro x hx
    rcases List.mem_cons.1 hx with rfl | hx
    · exact hfirst
    · exact bytesLess_trans _ _ _ hfirst (hrec.1 x hx)

/-! ### Which fault a call can raise -/

theorem drawLoop_fault (rnd : Nat → Int) (n : Nat) :
    ∀ (i : Nat) (s : GenState), (drawLoop rnd n i s).2 ≠ .error .clockRange := by
  induction n with
  | zero => intro i s; simp [drawLoop]
  | succ n ih =>
    intro i s
    rw [drawLoop]
    dsimp only
    split
    · exact ih _ _
    · simp

theorem carryLoop_fault (k : Nat) :
    ∀ l : List Int, (carryLoop k l).2 ≠ .error .clockRange := by
  induction k with
  | zero => intro l; simp [carryLoop]
  | succ k ih =>
    intro l
    rw [carryLoop]
    split
    · split
      · exact ih _
      · simp
    · simp

theorem incrementRand_fault (s : GenState) : (incrementRand s).2 ≠ .error .clockRange := by
  unfold incrementRand
  dsimp only
  have hc := carryLoop_fault 12 s.lastRandChars
  split
  · rename_i f hf
    intro e
    simp only at e
    rw [hf, Except.error.inj e] at hc
    exact hc rfl
  · split
    · simp
    · simp

theorem copyRandLoop_fault (n : Nat) :
    ∀ (i : Nat) (l id : List Int), copyRandLoop n i l id ≠ .error .clockRange := by
  induction n with
  | zero => intro i l id; simp [copyRandLoop]
  | succ n ih =>
    intro i l id
    rw [copyRandLoop]
    split
    · exact ih _ _ _
    · simp

theorem idStrLoop_fault (ds : List Int) :
    ∀ (acc : String) (f : Fault), idStrLoop ds acc = .error f →
      ∃ d, f = .indexOutOfRange d 64 := by
  induction ds with
  | nil => intro acc f h; simp [idStrLoop] at h
  | cons d ds ih =>
    intro acc f h
    by_cases hd : 0 ≤ d ∧ d ≤ 63
    · simp only [idStrLoop, idCharAt_digit d hd.1 hd.2] at h
      exact ih _ f h
    · have hd2 : d < 0 ∨ 63 < d := by omega
      simp only [idStrLoop, idCharAt_fault d hd2] at h
      exact ⟨d, (Except.error.inj h).symm⟩

/-- Once the range check has passed, no other step of a call raises the clock-range fault. -/
theorem next_not_clockRange (rnd : Nat → Int) (s : GenState) (clock : Int)
    (h0 : (timeStampLoop 8 clock (List.replicate 8 0)).2 = 0) :
    (next rnd s clock).2 ≠ .error .clockRange := by
  have key : ∀ stepped : GenState × Except Fault Unit, stepped.2 ≠ .error .clockRange →
      (match stepped.2 with
        | .error f => (stepped.1, (.error f : Except Fault String))
        | .ok _ =>
            match copyRandLoop 12 0 stepped.1.lastRandChars
                (copyTimeLoop 8 0 (timeStampLoop 8 clock (List.replicate 8 0)).1
                  (List.replicate 20 0)) with
            | .error f => (stepped.1, .error f)
            | .ok id => (stepped.1, idStrLoop id "")).2 ≠ .error .clockRange := by
    intro stepped hst
    split
    · rename_i f hf
      intro e
      simp only at e
      rw [hf, Except.error.inj e] at hst
      exact hst rfl
    · split
      · rename_i f hf
        intro e
        simp only at e
        rw [Except.error.inj e] at hf
        exact copyRandLoop_fault _ _ _ _ hf
      · rename_i id hid
        intro e
        simp only at e
        obtain ⟨d, hd⟩ := idStrLoop_fault _ _ _ e
        cases hd
  unfold next
  simp only [h0, ne_eq, not_true_eq_false, if_false]
  apply key
  split
  · exact drawLoop_fault _ _ _ _
  · exact incrementRand_fault _

/-! ### Digit order and byte order -/

theorem bytesLess_of_digitsLess (A B : List Int) (hlen : A.length = B.length)
    (hA : ∀ d ∈ A, 0 ≤ d ∧ d ≤ 63) (hB : ∀ d ∈ B, 0 ≤ d ∧ d ≤ 63)
    (h : digitsLess A B = true) :
    bytesLess ((A.map digitChar).map Char.toNat) ((B.map digitChar).map Char.toNat) = true := by
  induction A generalizing B with
  | nil =>
    cases B with
    | nil => simp [digitsLess] at h
    | cons b bs => simp at hlen
  | cons a as ih =>
    cases B with
    | nil => simp at hlen
    | cons b bs =>
      have hl : as.length = bs.length := by simpa using hlen
      have ha := hA a (List.mem_cons_self _ _)
      have hb := hB b (List.mem_cons_self _ _)
      simp only [digitsLess, Bool.or_eq_true, Bool.and_eq_true, decide_eq_true_eq] at h
      simp only [List.map_cons, bytesLess, Bool.or_eq_true, Bool.and_eq_true, decide_eq_true_eq]
      rcases h with hlt | ⟨heq, hrest⟩
      · left; exact digitChar_code_lt a b ha.1 hlt hb.2
      · right
        subst heq
        exact ⟨rfl, ih bs hl (fun x hx => hA x (List.mem_cons_of_mem _ hx))
          (fun x hx => hB x (List.mem_cons_of_mem _ hx)) hrest⟩

/-! ### Negative clock readings -/

theorem neg_tmod_eq (a : Int) : (-a).tmod 64 = -(a.tmod 64) := by
  rw [Int.tmod_def, Int.tmod_def, Int.neg_tdiv]
  ring

theorem timeStampLoop_neg (m : Int) :
    timeStampLoop 8 (-m) (List.replicate 8 0) =
      ((timeStampLoop 8 m (List.replicate 8 0)).1.map (fun d => -d),
        -(timeStampLoop 8 m (List.replicate 8 0)).2) := by
  rw [timeStampLoop_eight, timeStampLoop_eight]
  simp only [Int.neg_tdiv, neg_tmod_eq, List.map_cons, List.map_nil]

/-- A negative reading above `-2 ^ 48` passes the range check. -/
theorem timeStampLoop_rest_neg (n : Int) (h : -2 ^ 48 < n ∧ n < 0) :
    (timeStampLoop 8 n (List.replicate 8 0)).2 = 0 := by
  have e : n = -(-n) := by ring
  rw [e, timeStampLoop_neg]
  have := (timeStampLoop_rest_eq_zero_iff (-n) (by omega)).2 (by omega)
  simp only [this, neg_zero]

theorem timeStampChars_neg_digits (n : Int) (h : n < 0) :
    ∀ d ∈ timeStampChars n, -63 ≤ d ∧ d ≤ 0 := by
  have e : n = -(-n) := by ring
  intro d hd
  unfold timeStampChars at hd
  rw [e, timeStampLoop_neg] at hd
  obtain ⟨x, hx, rfl⟩ := List.mem_map.1 hd
  have := timeStampChars_digits (-n) (by omega) x hx
  omega

theorem timeStampChars_neg_exists (n : Int) (h : -2 ^ 48 < n ∧ n < 0) :
    ∃ d ∈ timeStampChars n, d < 0 := by
  by_contra hcon
  have hall : ∀ d ∈ timeStampChars n, 0 ≤ d ∧ d ≤ 63 := by
    intro d hd
    have h1 := timeStampChars_neg_digits n h.2 d hd
    have h2 : ¬ d < 0 := fun hlt => hcon ⟨d, hd, hlt⟩
    omega
  have hv := base64Value_nonneg _ hall
  have hr := timeStampLoop_recompose n
  rw [timeStampLoop_rest_neg n h] at hr
  omega

/-- The string loop stops at the first element that is not an index into the alphabet. -/
theorem idStrLoop_first_negative (xs ys : List Int) :
    ∀ acc : String, (∀ d ∈ xs, d ≤ 63) → (∃ d ∈ xs, d < 0) →
      ∃ d ∈ xs, d < 0 ∧ idStrLoop (xs ++ ys) acc = .error (.indexOutOfRange d 64) := by
  induction xs with
  | nil => intro acc _ hbad; obtain ⟨d, hd, -⟩ := hbad; simp at hd
  | cons x xs ih =>
    intro acc hle hbad
    by_cases hx : x < 0
    · refine ⟨x, List.mem_cons_self _ _, hx, ?_⟩
      simp only [List.cons_append, idStrLoop, idCharAt_fault x (Or.inl hx)]
    · have hx63 := hle x (List.mem_cons_self _ _)
      have hbad2 : ∃ d ∈ xs, d < 0 := by
        obtain ⟨d, hd, hlt⟩ := hbad
        rcases List.mem_cons.1 hd with rfl | hd
        · exact absurd hlt hx
        · exact ⟨d, hd, hlt⟩
      obtain ⟨d, hd, hlt, hres⟩ :=
        ih (acc ++ String.singleton (digitChar x))
          (fun y hy => hle y (List.mem_cons_of_mem _ hy)) hbad2
      refine ⟨d, List.mem_cons_of_mem _ hd, hlt, ?_⟩
      simp only [List.cons_append, idStrLoop, idCharAt_digit x (by omega) hx63]
      exact hres

/-! ## The claims -/

/-- C1. In a run of calls on one generator that all return (so no suffix overflow occurs and,
as a call returns only for a clock reading in `[0, 2 ^ 48)`, all readings lie in that range),
made with clock readings that never decrease, every identifier is strictly greater, byte-wise,
than every identifier returned earlier in the run, whatever the random source returns. -/
theorem C1_run_strictly_increasing (rnd : Nat → Int) (s s1 : GenState) (clocks : List Int)
    (ids : List String) (hlen : s.lastRandChars.length = 12)
    (hmono : clocks.Pairwise (· ≤ ·))
    (hrun : runCalls rnd s clocks = .ok (ids, s1)) :
    ids.Pairwise (fun a b => strLess a b = true) := by
  cases clocks with
  | nil =>
    simp only [runCalls] at hrun
    have := (Prod.mk.inj (Except.ok.inj hrun)).1
    subst this
    simp
  | cons t ts =>
    obtain ⟨s2, idStr, ids2, hn, hr, rfl⟩ := runCalls_cons_ok rnd s s1 t ts ids hrun
    obtain ⟨hclock, ht2, hl2, hd2, hid⟩ := next_ok_inv rnd s s2 t idStr hlen hn
    have hmono2 := List.pairwise_cons.1 hmono
    have hrec := runCalls_increasing rnd ts s2 s1 ids2 hl2 hd2 (by rw [ht2]; exact hclock.1)
      (fun x hx => by rw [ht2]; exact hmono2.1 x hx) hmono2.2 hr
    rw [ht2, ← hid] at hrec
    exact List.pairwise_cons.2 ⟨hrec.1, hrec.2⟩

theorem C1_run_strictly_increasing_witness :
    runCalls (fun i => (i % 64 : Int)) GenerateId [5, 5, 7, 7, 7] =
        .ok (["-------4-0123456789A", "-------4-0123456789B", "-------6BCDEFGHIJKLM",
              "-------6BCDEFGHIJKLN", "-------6BCDEFGHIJKLO"],
             { lastPushTime := 7,
               lastRandChars := [12, 13, 14, 15, 16, 17, 18, 19, 20, 21, 22, 25],
               randDraws := 24 }) ∧
      List.Pairwise (fun a b => strLess a b = true)
        ["-------4-0123456789A", "-------4-0123456789B", "-------6BCDEFGHIJKLM",
         "-------6BCDEFGHIJKLN", "-------6BCDEFGHIJKLO"] :=
  ⟨by decide,
   C1_run_strictly_increasing (fun i => (i % 64 : Int)) GenerateId
     { lastPushTime := 7, lastRandChars := [12, 13, 14, 15, 16, 17, 18, 19, 20, 21, 22, 25],
       randDraws := 24 } [5, 5, 7, 7, 7] _ (by decide) (by decide) (by decide)⟩

/-- C2. From a state whose twelve stored digits are in `[0, 63]`, for a clock reading in
`[0, 2 ^ 48)` and twelve drawn digits in `[0, 63]`, a call that does not hit suffix overflow
returns a string of exactly 20 characters, each a member of the alphabet `idChars`. -/
theorem C2_length_and_alphabet (rnd : Nat → Int) (s : GenState) (clock : Int)
    (hlen : s.lastRandChars.length = 12) (hdig : ∀ d ∈ s.lastRandChars, 0 ≤ d ∧ d ≤ 63)
    (hclock : 0 ≤ clock ∧ clock < 2 ^ 48)
    (hrnd : ∀ i, i < 12 → 0 ≤ rnd (s.randDraws + i) ∧ rnd (s.randDraws + i) ≤ 63)
    (hno : ¬ (clock = s.lastPushTime ∧ s.lastRandChars = List.replicate 12 63)) :
    ∃ s1 idStr, next rnd s clock = (s1, .ok idStr) ∧ idStr.length = 20 ∧
      ∀ c ∈ idStr.toList, c ∈ idChars.toList := by
  obtain ⟨s1, idStr, h⟩ := next_returns rnd s clock hlen hdig hclock hrnd hno
  obtain ⟨-, -, hl1, hd1, hid⟩ := next_ok_inv rnd s s1 clock idStr hlen h
  refine ⟨s1, idStr, h, ?_, ?_⟩
  · rw [hid]
    show ((timeStampChars clock ++ s1.lastRandChars).map digitChar).length = 20
    rw [List.length_map, List.length_append, timeStampChars_length, hl1]
  · rw [hid]
    intro c hc
    obtain ⟨d, hd, rfl⟩ := List.mem_map.1 hc
    rcases List.mem_append.1 hd with hd | hd
    · have := timeStampChars_digits clock hclock.1 d hd
      exact digitChar_mem d this.1 this.2
    · have := hd1 d hd
      exact digitChar_mem d this.1 this.2

theorem C2_length_and_alphabet_witness :
    ∃ s1 idStr, next (fun i => (i % 64 : Int)) GenerateId 1700000000000 = (s1, .ok idStr) ∧
      idStr.length = 20 ∧ ∀ c ∈ idStr.toList, c ∈ idChars.toList :=
  C2_length_and_alphabet (fun i => (i % 64 : Int)) GenerateId 1700000000000 (by decide)
    (by decide) (by decide) (by decide) (by decide)

/-- C3. When a call returns and the suffix it leaves is not all 63s, the next call at the same
clock reading returns too; its suffix, decoded as a 12-digit base-64 number, is the first
suffix plus one, the 8-character prefix is the same, and the first identifier is strictly
less than the second. -/
theorem C3_same_millisecond_increment (rnd : Nat → Int) (s s1 : GenState) (clock : Int)
    (id1 : String) (hlen : s.lastRandChars.length = 12)
    (hfirst : next rnd s clock = (s1, .ok id1))
    (hnotmax : s1.lastRandChars ≠ List.replicate 12 63) :
    ∃ s2 id2, next rnd s1 clock = (s2, .ok id2) ∧
      decodeChars (id2.toList.drop 8) = decodeChars (id1.toList.drop 8) + 1 ∧
      id2.toList.take 8 = id1.toList.take 8 ∧ strLess id1 id2 = true := by
  obtain ⟨hclock, ht1, hl1, hd1, hid1⟩ := next_ok_inv rnd s s1 clock id1 hlen hfirst
  obtain ⟨s2, id2, h2, -, hv⟩ :=
    next_dup_returns rnd s1 hl1 hd1 (by rw [ht1]; exact hclock) hnotmax
  rw [ht1] at h2
  obtain ⟨-, -, hl2, hd2, hid2⟩ := next_ok_inv rnd s1 s2 clock id2 hl1 h2
  refine ⟨s2, id2, h2, ?_, ?_, ?_⟩
  · rw [hid1, hid2]
    show decodeChars (((timeStampChars clock ++ s2.lastRandChars).map digitChar).drop 8) =
      decodeChars (((timeStampChars clock ++ s1.lastRandChars).map digitChar).drop 8) + 1
    rw [List.map_append, List.map_append,
      List.drop_left' (by rw [List.length_map, timeStampChars_length]),
      List.drop_left' (by rw [List.length_map, timeStampChars_length]),
      decodeChars_map_digitChar _ hd2, decodeChars_map_digitChar _ hd1, hv]
  · rw [hid1, hid2]
    show ((timeStampChars clock ++ s2.lastRandChars).map digitChar).take 8 =
      ((timeStampChars clock ++ s1.lastRandChars).map digitChar).take 8
    rw [List.map_append, List.map_append,
      List.take_left' (by rw [List.length_map, timeStampChars_length]),
      List.take_left' (by rw [List.length_map, timeStampChars_length])]
  · have := next_after rnd s1 s2 clock id2 hl1 hd1 (by rw [ht1]; exact hclock.1)
      (by rw [ht1]) h2
    rw [ht1, ← hid1] at this
    exact this

theorem C3_same_millisecond_increment_witness :
    ∃ s2 id2,
      next (fun i => (i % 64 : Int)) ⟨5, [0, 1, 2, 3, 4, 5, 6, 7, 8, 9, 10, 11], 12⟩ 5 =
        (s2, .ok id2) ∧
      decodeChars (id2.toList.drop 8) = decodeChars ("-------4-0123456789A".toList.drop 8) + 1 ∧
      id2.toList.take 8 = "-------4-0123456789A".toList.take 8 ∧
      strLess "-------4-0123456789A" id2 = true :=
  C3_same_millisecond_increment (fun i => (i % 64 : Int)) GenerateId
    ⟨5, [0, 1, 2, 3, 4, 5, 6, 7, 8, 9, 10, 11], 12⟩ 5 "-------4-0123456789A" (by decide)
    (by decide) (by decide)

/-- C4. For every clock reading in `[0, 2 ^ 48)`, decoding the first 8 characters of the
identifier the call returns (each character mapped to its index in `idChars`, the indices
read as a base-64 number, most significant digit first) gives back the clock reading. -/
theorem C4_timestamp_round_trip (rnd : Nat → Int) (s s1 : GenState) (clock : Int)
    (idStr : String) (hlen : s.lastRandChars.length = 12)
    (hclock : 0 ≤ clock ∧ clock < 2 ^ 48) (h : next rnd s clock = (s1, .ok idStr)) :
    decodeChars (idStr.toList.take 8) = clock := by
  obtain ⟨-, -, -, -, hid⟩ := next_ok_inv rnd s s1 clock idStr hlen h
  rw [hid]
  show decodeChars (((timeStampChars clock ++ s1.lastRandChars).map digitChar).take 8) = clock
  rw [List.map_append, List.take_left' (by rw [List.length_map, timeStampChars_length]),
    decodeChars_map_digitChar _ (timeStampChars_digits clock hclock.1),
    base64Value_timeStampChars clock hclock.1 hclock.2]

theorem C4_timestamp_round_trip_witness :
    decodeChars ("-NjEtLV--0123456789A".toList.take 8) = 1700000000000 :=
  C4_timestamp_round_trip (fun i => (i % 64 : Int)) GenerateId
    ⟨1700000000000, [0, 1, 2, 3, 4, 5, 6, 7, 8, 9, 10, 11], 12⟩ 1700000000000
    "-NjEtLV--0123456789A" (by decide) (by decide) (by decide)

/-- C5. When a call that returns an identifier read a clock different from the stored
`lastPushTime`, the stored suffix is overwritten with the twelve digits drawn from the random
source, in draw order; the twelve suffix characters of the identifier are the alphabet
characters of those digits; and the outcome is the same for every previous stored suffix. -/
theorem C5_fresh_suffix_redrawn (rnd : Nat → Int) (s s1 : GenState) (clock : Int)
    (idStr : String) (hlen : s.lastRandChars.length = 12) (hne : clock ≠ s.lastPushTime)
    (h : next rnd s clock = (s1, .ok idStr)) :
    s1.lastRandChars = (List.range 12).map (fun i => rnd (s.randDraws + i)) ∧
      ((List.range 12).map (fun i => rnd (s.randDraws + i))).map idCharAt =
        (idStr.toList.drop 8).map Except.ok ∧
      ∀ prev : List Int, prev.length = 12 →
        next rnd { s with lastRandChars := prev } clock = (s1, .ok idStr) := by
  obtain ⟨hclock, -, -, hd1, hid⟩ := next_ok_inv rnd s s1 clock idStr hlen h
  have h0 := (timeStampLoop_rest_eq_zero_iff clock hclock.1).2 hclock.2
  have hs : s1.lastRandChars = drawnDigits rnd s.randDraws := by
    have h' := h
    rw [next_fresh rnd s clock hlen h0 hne] at h'
    rw [← (Prod.mk.inj h').1]
  refine ⟨hs, ?_, ?_⟩
  · rw [hid]
    show (drawnDigits rnd s.randDraws).map idCharAt =
      (((timeStampChars clock ++ s1.lastRandChars).map digitChar).drop 8).map Except.ok
    rw [List.map_append, List.drop_left' (by rw [List.length_map, timeStampChars_length]),
      List.map_map, ← hs]
    apply List.map_congr_left
    intro d hd
    have := hd1 d hd
    simp [idCharAt_digit d this.1 this.2]
  · intro prev hprev
    rw [← h, next_fresh rnd s clock hlen h0 hne,
      next_fresh rnd { s with lastRandChars := prev } clock hprev h0 hne]

theorem C5_fresh_suffix_redrawn_witness :
    (⟨5, [0, 1, 2, 3, 4, 5, 6, 7, 8, 9, 10, 11], 12⟩ : GenState).lastRandChars =
        (List.range 12).map (fun i => ((fun i => (i % 64 : Int)) (GenerateId.randDraws + i))) ∧
      ((List.range 12).map
          (fun i => ((fun i => (i % 64 : Int)) (GenerateId.randDraws + i)))).map idCharAt =
        ("-------4-0123456789A".toList.drop 8).map Except.ok ∧
      ∀ prev : List Int, prev.length = 12 →
        next (fun i => (i % 64 : Int)) { GenerateId with lastRandChars := prev } 5 =
          (⟨5, [0, 1, 2, 3, 4, 5, 6, 7, 8, 9, 10, 11], 12⟩, .ok "-------4-0123456789A") :=
  C5_fresh_suffix_redrawn (fun i => (i % 64 : Int)) GenerateId
    ⟨5, [0, 1, 2, 3, 4, 5, 6, 7, 8, 9, 10, 11], 12⟩ 5 "-------4-0123456789A" (by decide)
    (by decide) (by decide)

/-- C6. For every clock reading that is not negative, the call aborts with the clock-range
fault if and only if the reading is at least `2 ^ 48`; for a reading in `[0, 2 ^ 48)` the
quotient left after the eight digit extractions is 0. -/
theorem C6_clock_range_fault (rnd : Nat → Int) (s : GenState) (clock : Int) (h : 0 ≤ clock) :
    ((next rnd s clock).2 = .error .clockRange ↔ 2 ^ 48 ≤ clock) ∧
      (clock < 2 ^ 48 → (timeStampLoop 8 clock (List.replicate 8 0)).2 = 0) := by
  have hiff := timeStampLoop_rest_eq_zero_iff clock h
  refine ⟨⟨?_, ?_⟩, hiff.2⟩
  · intro hf
    by_contra hlt
    exact next_not_clockRange rnd s clock (hiff.2 (not_le.1 hlt)) hf
  · intro hge
    have h0 : (timeStampLoop 8 clock (List.replicate 8 0)).2 ≠ 0 :=
      fun e => absurd (hiff.1 e) (not_lt.2 hge)
    rw [next_clockRange rnd s clock h0]

theorem C6_clock_range_fault_witness :
    ((next (fun _ => 0) GenerateId (2 ^ 48)).2 = .error .clockRange ↔
        (2 : Int) ^ 48 ≤ 2 ^ 48) ∧
      ((2 : Int) ^ 48 < 2 ^ 48 → (timeStampLoop 8 (2 ^ 48) (List.replicate 8 0)).2 = 0) :=
  C6_clock_range_fault (fun _ => 0) GenerateId (2 ^ 48) (by decide)

/-- C7. When a call that passes the clock-range check reads the stored `lastPushTime` while all
twelve stored digits are 63, the carry scan runs past index 0 and the call faults with an
out-of-range access, index -1 of the 12-element sequence, instead of returning an identifier;
for every stored suffix with at least one digit below 63 the increment does not fault. -/
theorem C7_suffix_overflow_fault (rnd : Nat → Int) (t : Int) (k : Nat)
    (hpass : (timeStampLoop 8 t (List.replicate 8 0)).2 = 0) :
    (next rnd { lastPushTime := t, lastRandChars := List.replicate 12 63, randDraws := k } t).2 =
        .error (.indexOutOfRange (-1) 12) ∧
      ∀ l : List Int, l.length = 12 → (∃ d ∈ l, d < 63) →
        (incrementRand { lastPushTime := t, lastRandChars := l, randDraws := k }).2 = .ok () := by
  refine ⟨by rw [next_dup_all_max rnd t k hpass], ?_⟩
  intro l hl hex
  rcases digits_split l with hall | ⟨pre, d, m, hd, hsplit⟩
  · obtain ⟨d, hd, hlt⟩ := hex
    rw [hall] at hd
    have := List.eq_of_mem_replicate hd
    omega
  · subst hsplit
    have hlen2 : pre.length + 1 + m = 12 := by
      simp only [List.length_append, List.length_cons, List.length_replicate] at hl; omega
    rw [incrementRand_stop t k pre d hd m hlen2]

theorem C7_suffix_overflow_fault_witness :
    (next (fun _ => 63)
        { lastPushTime := 5, lastRandChars := List.replicate 12 63, randDraws := 12 } 5).2 =
        .error (.indexOutOfRange (-1) 12) ∧
      ∀ l : List Int, l.length = 12 → (∃ d ∈ l, d < 63) →
        (incrementRand { lastPushTime := 5, lastRandChars := l, randDraws := 12 }).2 = .ok () :=
  C7_suffix_overflow_fault (fun _ => 63) 5 12 (by decide)

/-- C8, as the claim states it, fails: a clock-range fault on a fresh generator leaves
`lastPushTime` overwritten, and a suffix overflow leaves the twelve digits reset to 0. -/
theorem C8_counterexample :
    (next (fun _ => 63) GenerateId (2 ^ 48) =
        ({ lastPushTime := 2 ^ 48, lastRandChars := List.replicate 12 0, randDraws := 0 },
          .error .clockRange) ∧
      ({ lastPushTime := 2 ^ 48, lastRandChars := List.replicate 12 0, randDraws := 0 } : GenState)
        ≠ GenerateId) ∧
    (next (fun _ => 63)
        { lastPushTime := 5, lastRandChars := List.replicate 12 63, randDraws := 12 } 5 =
        ({ lastPushTime := 5, lastRandChars := List.replicate 12 0, randDraws := 12 },
          .error (.indexOutOfRange (-1) 12)) ∧
      ({ lastPushTime := 5, lastRandChars := List.replicate 12 0, randDraws := 12 } : GenState) ≠
        { lastPushTime := 5, lastRandChars := List.replicate 12 63, randDraws := 12 }) := by
  decide

/-- C8, amended. When a call faults with the clock-range violation, the stored suffix and the
random source are as before the call and `lastPushTime` holds the clock reading of the
faulting call; when a call faults with the suffix overflow, `lastPushTime` is as before the
call and nothing was drawn from the random source. -/
theorem C8_state_after_fault (rnd : Nat → Int) (s s1 : GenState) (clock : Int) (f : Fault)
    (hlen : s.lastRandChars.length = 12) (h : next rnd s clock = (s1, .error f)) :
    (f = .clockRange →
        s1.lastRandChars = s.lastRandChars ∧ s1.randDraws = s.randDraws ∧
          s1.lastPushTime = clock) ∧
      (f = .indexOutOfRange (-1) 12 →
        s1.lastPushTime = s.lastPushTime ∧ s1.randDraws = s.randDraws) := by
  by_cases h0 : (timeStampLoop 8 clock (List.replicate 8 0)).2 = 0
  · constructor
    · intro hf
      subst hf
      have := next_not_clockRange rnd s clock h0
      rw [h] at this
      exact absurd rfl this
    · intro hf
      subst hf
      by_cases hdup : clock = s.lastPushTime
      · obtain ⟨t, l, k⟩ := s
        simp only at hdup hlen ⊢
        subst hdup
        rcases digits_split l with hall | ⟨pre, d, m, hd, hl⟩
        · rw [hlen] at hall
          subst hall
          rw [next_dup_all_max rnd clock k h0] at h
          rw [← (Prod.mk.inj h).1]
          exact ⟨rfl, rfl⟩
        · subst hl
          have hlen2 : pre.length + 1 + m = 12 := by
            simp only [List.length_append, List.length_cons, List.length_replicate] at hlen
            omega
          rw [next_dup_stop rnd clock k pre d hd m hlen2 h0] at h
          rw [← (Prod.mk.inj h).1]
          exact ⟨rfl, rfl⟩
      · rw [next_fresh rnd s clock hlen h0 hdup] at h
        obtain ⟨d, hd⟩ := idStrLoop_fault _ _ _ (Prod.mk.inj h).2
        cases hd
  · rw [next_clockRange rnd s clock h0] at h
    have h1 := (Prod.mk.inj h).1
    have h2 := Except.error.inj (Prod.mk.inj h).2
    constructor
    · intro _
      rw [← h1]
      exact ⟨rfl, rfl, rfl⟩
    · intro hf
      rw [hf] at h2
      cases h2

theorem C8_state_after_fault_witness :
    ((Fault.clockRange = .clockRange →
        (⟨2 ^ 48, List.replicate 12 0, 0⟩ : GenState).lastRandChars = GenerateId.lastRandChars ∧
          (⟨2 ^ 48, List.replicate 12 0, 0⟩ : GenState).randDraws = GenerateId.randDraws ∧
          (⟨2 ^ 48, List.replicate 12 0, 0⟩ : GenState).lastPushTime = 2 ^ 48) ∧
      (Fault.clockRange = .indexOutOfRange (-1) 12 →
        (⟨2 ^ 48, List.replicate 12 0, 0⟩ : GenState).lastPushTime = GenerateId.lastPushTime ∧
          (⟨2 ^ 48, List.replicate 12 0, 0⟩ : GenState).randDraws = GenerateId.randDraws)) :=
  C8_state_after_fault (fun _ => 63) GenerateId ⟨2 ^ 48, List.replicate 12 0, 0⟩ (2 ^ 48)
    .clockRange (by decide) (by decide)

/-- C9. For clock readings `t1 < t2` in `[0, 2 ^ 48)` and any two 12-digit suffixes with
digits in `[0, 63]`, both identifiers are built and the one built from `t1` is strictly less,
byte-wise, than the one built from `t2`: the timestamp prefix decides. -/
theorem C9_timestamp_dominates (t1 t2 : Int) (suffix1 suffix2 : List Int)
    (h1 : 0 ≤ t1) (h12 : t1 < t2) (h2 : t2 < 2 ^ 48)
    (hl1 : suffix1.length = 12) (hl2 : suffix2.length = 12)
    (hd1 : ∀ d ∈ suffix1, 0 ≤ d ∧ d ≤ 63) (hd2 : ∀ d ∈ suffix2, 0 ≤ d ∧ d ≤ 63) :
    ∃ a b, buildId t1 suffix1 = .ok a ∧ buildId t2 suffix2 = .ok b ∧ strLess a b = true := by
  have ht1 : 0 ≤ t1 ∧ t1 < 2 ^ 48 := ⟨h1, by omega⟩
  have ht2 : 0 ≤ t2 ∧ t2 < 2 ^ 48 := ⟨by omega, h2⟩
  have ha : ∀ x ∈ timeStampChars t1 ++ suffix1, 0 ≤ x ∧ x ≤ 63 := by
    intro x hx
    rcases List.mem_append.1 hx with hx | hx
    · exact timeStampChars_digits t1 ht1.1 x hx
    · exact hd1 x hx
  have hb : ∀ x ∈ timeStampChars t2 ++ suffix2, 0 ≤ x ∧ x ≤ 63 := by
    intro x hx
    rcases List.mem_append.1 hx with hx | hx
    · exact timeStampChars_digits t2 ht2.1 x hx
    · exact hd2 x hx
  refine ⟨⟨(timeStampChars t1 ++ suffix1).map digitChar⟩,
    ⟨(timeStampChars t2 ++ suffix2).map digitChar⟩, ?_, ?_, ?_⟩
  · rw [buildId_eq t1 suffix1 hl1, idStrLoop_digits _ _ ha]; rfl
  · rw [buildId_eq t2 suffix2 hl2, idStrLoop_digits _ _ hb]; rfl
  · exact strLess_of_lex t1 t2 suffix1 suffix2 ht1 ht2 hl1 hl2 hd1 hd2 (Or.inl h12)

theorem C9_timestamp_dominates_witness :
    ∃ a b, buildId 5 (List.replicate 12 63) = .ok a ∧ buildId 6 (List.replicate 12 0) = .ok b ∧
      strLess a b = true :=
  C9_timestamp_dominates 5 6 (List.replicate 12 63) (List.replicate 12 0) (by decide)
    (by decide) (by decide) (by decide) (by decide) (by decide) (by decide)

/-- C11. The alphabet has exactly 64 symbols, all ASCII, and the code of `idChars[i]` is
strictly increasing in `i` over `[0, 63]`; so the symbols are pairwise distinct and index
order is byte order. -/
theorem C11_alphabet_strictly_increasing :
    idChars.length = 64 ∧ (∀ c ∈ idChars.toList, c.toNat < 128) ∧
      (∀ i j : Int, 0 ≤ i → i < j → j ≤ 63 →
        ∃ a b, idCharAt i = .ok a ∧ idCharAt j = .ok b ∧ a.toNat < b.toNat) ∧
      idChars.toList.Nodup := by
  refine ⟨rfl, ?_, ?_, ?_⟩
  · rw [idChars_toList]; decide
  · intro i j hi hij hj
    exact ⟨digitChar i, digitChar j, idCharAt_digit i hi (by omega),
      idCharAt_digit j (by omega) hj, digitChar_code_lt i j hi hij hj⟩
  · rw [idChars_toList]; decide

/-- C12. For two digit sequences of the same length with all digits in `[0, 63]`, if the first
is less than the second lexicographically on digits (most significant digit first), both are
turned into strings by the alphabet lookup and the first string is strictly less, byte-wise,
than the second. -/
theorem C12_encoding_preserves_order (A B : List Int) (hlen : A.length = B.length)
    (hA : ∀ d ∈ A, 0 ≤ d ∧ d ≤ 63) (hB : ∀ d ∈ B, 0 ≤ d ∧ d ≤ 63)
    (hless : digitsLess A B = true) :
    ∃ a b, idStrLoop A "" = .ok a ∧ idStrLoop B "" = .ok b ∧ strLess a b = true := by
  refine ⟨⟨"".data ++ A.map digitChar⟩, ⟨"".data ++ B.map digitChar⟩,
    idStrLoop_digits A "" hA, idStrLoop_digits B "" hB, ?_⟩
  exact bytesLess_of_digitsLess A B hlen hA hB hless

theorem C12_encoding_preserves_order_witness :
    ∃ a b, idStrLoop [0, 63, 63] "" = .ok a ∧ idStrLoop [1, 0, 0] "" = .ok b ∧
      strLess a b = true :=
  C12_encoding_preserves_order [0, 63, 63] [1, 0, 0] (by decide) (by decide) (by decide)
    (by decide)

/-- C13. On a duplicate-timestamp call (one that passes the range check) with a stored suffix
of digits in `[0, 63]` that is not all 63s, the suffix splits as `pre`, a digit `d` that is not
63, and a maximal run of trailing 63s; the call resets exactly that run to 0, adds 1 to `d`
and leaves `pre` unchanged. In particular `[0,0,0,0,0,0,0,0,0,0,0,63]` becomes
`[0,0,0,0,0,0,0,0,0,0,1,0]`. -/
theorem C13_carry_increment (rnd : Nat → Int) (t : Int) (k : Nat) (l : List Int)
    (hpass : (timeStampLoop 8 t (List.replicate 8 0)).2 = 0)
    (hlen : l.length = 12) (hdig : ∀ d ∈ l, 0 ≤ d ∧ d ≤ 63)
    (hnotmax : l ≠ List.replicate 12 63) :
    (∃ pre d m, d ≠ 63 ∧ l = pre ++ d :: List.replicate m 63 ∧
        (next rnd { lastPushTime := t, lastRandChars := l, randDraws := k } t).1.lastRandChars =
          pre ++ (d + 1) :: List.replicate m 0) ∧
      (next rnd { lastPushTime := t, lastRandChars := [0, 0, 0, 0, 0, 0, 0, 0, 0, 0, 0, 63],
                  randDraws := k } t).1.lastRandChars =
        [0, 0, 0, 0, 0, 0, 0, 0, 0, 0, 1, 0] := by
  constructor
  · rcases digits_split l with hall | ⟨pre, d, m, hd, hl⟩
    · rw [hlen] at hall
      exact absurd hall hnotmax
    · subst hl
      have hlen2 : pre.length + 1 + m = 12 := by
        simp only [List.length_append, List.length_cons, List.length_replicate] at hlen; omega
      have hd2 := hdig d (by simp)
      refine ⟨pre, d, m, hd, rfl, ?_⟩
      rw [next_dup_stop rnd t k pre d hd m hlen2 hpass, wrapInt64_digit d hd2.1 hd2.2]
  · have h := next_dup_stop rnd t k (List.replicate 10 0) 0 (by decide) 1 (by decide) hpass
    have e1 : List.replicate 10 (0 : Int) ++ 0 :: List.replicate 1 63 =
        [0, 0, 0, 0, 0, 0, 0, 0, 0, 0, 0, 63] := by decide
    have e2 : List.replicate 10 (0 : Int) ++ wrapInt64 (0 + 1) :: List.replicate 1 0 =
        [0, 0, 0, 0, 0, 0, 0, 0, 0, 0, 1, 0] := by decide
    rw [e1, e2] at h
    rw [h]

theorem C13_carry_increment_witness :
    (∃ pre d m, d ≠ 63 ∧
        ([7, 7, 7, 7, 7, 7, 7, 7, 7, 5, 63, 63] : List Int) = pre ++ d :: List.replicate m 63 ∧
        (next (fun _ => 0)
            { lastPushTime := 9, lastRandChars := [7, 7, 7, 7, 7, 7, 7, 7, 7, 5, 63, 63],
              randDraws := 12 } 9).1.lastRandChars =
          pre ++ (d + 1) :: List.replicate m 0) ∧
      (next (fun _ => 0)
          { lastPushTime := 9, lastRandChars := [0, 0, 0, 0, 0, 0, 0, 0, 0, 0, 0, 63],
            randDraws := 12 } 9).1.lastRandChars =
        [0, 0, 0, 0, 0, 0, 0, 0, 0, 0, 1, 0] :=
  C13_carry_increment (fun _ => 0) 9 12 [7, 7, 7, 7, 7, 7, 7, 7, 7, 5, 63, 63] (by decide)
    (by decide) (by decide) (by decide)

/-- C14. The stored suffix of a fresh generator has exactly 12 entries, each in `[0, 63]`; a
call that returns an identifier from a state with a 12-entry suffix (the drawn digits then
being in `[0, 63]`) leaves a suffix of exactly 12 entries, each in `[0, 63]`, and leaves
`lastPushTime` equal to the clock reading of the call, duplicate or not. -/
theorem C14_state_invariant (rnd : Nat → Int) (s s1 : GenState) (clock : Int) (idStr : String)
    (hlen : s.lastRandChars.length = 12) (h : next rnd s clock = (s1, .ok idStr)) :
    (GenerateId.lastRandChars.length = 12 ∧ ∀ d ∈ GenerateId.lastRandChars, 0 ≤ d ∧ d ≤ 63) ∧
      (s1.lastRandChars.length = 12 ∧ ∀ d ∈ s1.lastRandChars, 0 ≤ d ∧ d ≤ 63) ∧
      s1.lastPushTime = clock := by
  obtain ⟨-, ht, hl1, hd1, -⟩ := next_ok_inv rnd s s1 clock idStr hlen h
  exact ⟨⟨rfl, by decide⟩, ⟨hl1, hd1⟩, ht⟩

theorem C14_state_invariant_witness :
    (GenerateId.lastRandChars.length = 12 ∧ ∀ d ∈ GenerateId.lastRandChars, 0 ≤ d ∧ d ≤ 63) ∧
      ((⟨5, [0, 1, 2, 3, 4, 5, 6, 7, 8, 9, 10, 12], 12⟩ : GenState).lastRandChars.length = 12 ∧
        ∀ d ∈ (⟨5, [0, 1, 2, 3, 4, 5, 6, 7, 8, 9, 10, 12], 12⟩ : GenState).lastRandChars,
          0 ≤ d ∧ d ≤ 63) ∧
      (⟨5, [0, 1, 2, 3, 4, 5, 6, 7, 8, 9, 10, 12], 12⟩ : GenState).lastPushTime = 5 :=
  C14_state_invariant (fun i => (i % 64 : Int)) ⟨5, [0, 1, 2, 3, 4, 5, 6, 7, 8, 9, 10, 11], 12⟩
    ⟨5, [0, 1, 2, 3, 4, 5, 6, 7, 8, 9, 10, 12], 12⟩ 5 "-------4-0123456789B" (by decide)
    (by decide)

/-- C15. For two consecutive calls on one generator that both return, when the second clock
reading is strictly smaller than the first, the second identifier is strictly smaller,
byte-wise, than the first, whatever the random source returns. -/
theorem C15_clock_backwards (rnd : Nat → Int) (s s1 s2 : GenState) (t1 t2 : Int)
    (id1 id2 : String) (hlen : s.lastRandChars.length = 12)
    (hfirst : next rnd s t1 = (s1, .ok id1)) (hsecond : next rnd s1 t2 = (s2, .ok id2))
    (hback : t2 < t1) : strLess id2 id1 = true := by
  obtain ⟨hc1, -, hl1, hd1, hid1⟩ := next_ok_inv rnd s s1 t1 id1 hlen hfirst
  obtain ⟨hc2, -, hl2, hd2, hid2⟩ := next_ok_inv rnd s1 s2 t2 id2 hl1 hsecond
  rw [hid1, hid2]
  exact strLess_of_lex t2 t1 _ _ hc2 hc1 hl2 hl1 hd2 hd1 (Or.inl hback)

theorem C15_clock_backwards_witness :
    strLess "-------3BCDEFGHIJKLM" "-------4-0123456789A" = true :=
  C15_clock_backwards (fun i => (i % 64 : Int)) GenerateId
    ⟨5, [0, 1, 2, 3, 4, 5, 6, 7, 8, 9, 10, 11], 12⟩
    ⟨4, [12, 13, 14, 15, 16, 17, 18, 19, 20, 21, 22, 23], 24⟩ 5 4
    "-------4-0123456789A" "-------3BCDEFGHIJKLM" (by decide) (by decide) (by decide) (by decide)

/-- C16. On a fresh generator a first call that reads the clock value 0 is handled as a
duplicate timestamp: nothing is drawn from the random source, the all-zero suffix becomes
`[0,0,0,0,0,0,0,0,0,0,0,1]`, and the identifier is 19 `-` characters followed by `0`. -/
theorem C16_first_call_at_zero (rnd : Nat → Int) :
    next rnd GenerateId 0 =
        ({ lastPushTime := 0, lastRandChars := [0, 0, 0, 0, 0, 0, 0, 0, 0, 0, 0, 1],
           randDraws := GenerateId.randDraws },
          .ok "-------------------0") ∧
      "-------------------0".toList = List.replicate 19 '-' ++ ['0'] := by
  constructor
  · rfl
  · decide

/-- C17, as the claim states it, fails: after a call at the reading -1 whose twelve drawn
digits are all 63 (it faults on the alphabet lookup, after the mutex was released), a second
call at the reading -1 faults in the carry scan, on the 12-element suffix at line 62, not on
the alphabet lookup. -/
theorem C17_counterexample :
    next (fun _ => 63) GenerateId (-1) =
        ({ lastPushTime := -1, lastRandChars := List.replicate 12 63, randDraws := 12 },
          .error (.indexOutOfRange (-1) 64)) ∧
      next (fun _ => 63)
          { lastPushTime := -1, lastRandChars := List.replicate 12 63, randDraws := 12 } (-1) =
        ({ lastPushTime := -1, lastRandChars := List.replicate 12 0, randDraws := 12 },
          .error (.indexOutOfRange (-1) 12)) := by
  decide

/-- C17, amended. For every negative clock reading above `-2 ^ 48` the range check does not
fire and at least one of the eight timestamp digits is negative; a call that does not hit the
suffix overflow then faults on the alphabet lookup (a 64-element sequence) at a negative
timestamp digit instead of returning an identifier, with `lastPushTime` already set to the
reading. -/
theorem C17_negative_clock_fault (rnd : Nat → Int) (s : GenState) (clock : Int)
    (hlen : s.lastRandChars.length = 12) (hneg : -2 ^ 48 < clock ∧ clock < 0)
    (hno : ¬ (clock = s.lastPushTime ∧ s.lastRandChars = List.replicate 12 63)) :
    (timeStampLoop 8 clock (List.replicate 8 0)).2 = 0 ∧
      ∃ d ∈ timeStampChars clock, d < 0 ∧
        (next rnd s clock).2 = .error (.indexOutOfRange d 64) ∧
        (next rnd s clock).1.lastPushTime = clock := by
  have h0 := timeStampLoop_rest_neg clock hneg
  have hle : ∀ d ∈ timeStampChars clock, d ≤ 63 := by
    intro d hd
    have := timeStampChars_neg_digits clock hneg.2 d hd
    omega
  have hbad := timeStampChars_neg_exists clock hneg
  refine ⟨h0, ?_⟩
  by_cases hdup : clock = s.lastPushTime
  · obtain ⟨t, l, k⟩ := s
    simp only at hdup hlen hno
    subst hdup
    rcases digits_split l with hall | ⟨pre, d, m, hd, hl⟩
    · rw [hlen] at hall
      exact absurd ⟨rfl, hall⟩ hno
    · subst hl
      have hlen2 : pre.length + 1 + m = 12 := by
        simp only [List.length_append, List.length_cons, List.length_replicate] at hlen; omega
      obtain ⟨x, hx, hlt, hres⟩ := idStrLoop_first_negative (timeStampChars clock)
        (pre ++ wrapInt64 (d + 1) :: List.replicate m 0) "" hle hbad
      refine ⟨x, hx, hlt, ?_, ?_⟩
      · rw [next_dup_stop rnd clock k pre d hd m hlen2 h0]; exact hres
      · rw [next_dup_stop rnd clock k pre d hd m hlen2 h0]
  · obtain ⟨x, hx, hlt, hres⟩ := idStrLoop_first_negative (timeStampChars clock)
      (drawnDigits rnd s.randDraws) "" hle hbad
    refine ⟨x, hx, hlt, ?_, ?_⟩
    · rw [next_fresh rnd s clock hlen h0 hdup]; exact hres
    · rw [next_fresh rnd s clock hlen h0 hdup]

theorem C17_negative_clock_fault_witness :
    (timeStampLoop 8 (-1) (List.replicate 8 0)).2 = 0 ∧
      ∃ d ∈ timeStampChars (-1), d < 0 ∧
        (next (fun _ => 63) GenerateId (-1)).2 = .error (.indexOutOfRange d 64) ∧
        (next (fun _ => 63) GenerateId (-1)).1.lastPushTime = -1 :=
  C17_negative_clock_fault (fun _ => 63) GenerateId (-1) (by decide) (by decide) (by decide)

end PushId
